import Mathlib

/-!
Verification development for the storage core of a BusTub-style educational DBMS:
the LRU-K replacer (src/buffer/lru_k_replacer.cpp), the buffer pool manager
(src/buffer/buffer_pool_manager.cpp) and the disk extendible hash table
(src/container/disk/hash/disk_extendible_hash_table.cpp).

Modelling conventions:
* Machine integers are modelled by `Nat`/`Int`.  `page_id_t` is `Int` with the
  sentinel `INVALID_PAGE_ID = -1`; frame ids and hash values are `Nat` unless the
  source compares them signedly (`frame_id_t` in the replacer is `Int`).
* C++ `std::map`/arrays become association lists sorted by key, or total
  functions updated pointwise (for the fixed-size page arrays of the directory).
* Exceptions and assertion failures are explicit: operations that can throw
  return a `Bool` "threw" flag or an `Option`, `none` meaning the C++ run leaves
  the modelled state space (failed assert, read of a page that does not exist).
* Recursion/loops of the source are written with an explicit fuel argument; the
  fuel passed by the public wrappers matches the bound argued in the source.
* The hash-table layer sees the buffer pool only through page guards.  It is
  modelled as a page store `Int → Option HPage`: fetching a page yields its
  current contents, `NewPageGuarded` allocates a fresh id (reusing recycled
  ids first, as `AllocatePage` does) and `DeletePage` removes the page — unless
  the page is still pinned.  Within one single-threaded operation the pin count
  of a page equals the number of live guards on it, so `Remove`, the only hash
  table operation that calls `DeletePage`, threads the multiset of page ids
  currently pinned by live guards and `DeletePage` consults it, mirroring the
  `GetPinCount() > 0` test of the buffer pool.  Frame eviction is content
  transparent (dirty pages are written back before reuse), so the pool size
  does not appear at this layer.
-/

/-! ## LRU-K replacer

The replacer algorithm (`Evict`, `RecordAccess`, `SetEvictable`, `Remove`,
`Size`) is taken from src/buffer/lru_k_replacer.cpp.  The `LRUKNode` accessors
are not part of the sources, so they are modelled from the spec. -/

/-- Modelled from the spec: `LRUKNode` — the replacer node holds an evictable
flag and a "bounded history of last-K access timestamps" (§3).  The history is
stored most-recent-first.  `AddHistory` "appends the timestamp to the node's
history, retaining only the most recent K entries" (§4.2). -/
structure LRUKNode where
  history : List Nat
  is_evictable : Bool
deriving DecidableEq

/-- Modelled from the spec: appending an access timestamp, keeping the K most
recent entries (§4.2 RecordAccess). -/
def LRUKNode.AddHistory (n : LRUKNode) (k ts : Nat) : LRUKNode :=
  { n with history := (ts :: n.history).take k }

/-- Modelled from the spec: `GetK` returns the number of retained accesses. -/
def LRUKNode.GetK (n : LRUKNode) : Nat :=
  n.history.length

/-- Modelled from the spec (§4.2): for `m ≥ k` the k-distance is `T - t_{m-k+1}`,
the age of the K-th most recent access, so comparing distances at a common `T`
compares the retained oldest timestamps inversely; for `m < k` the distance is
`+∞` with `t₁` (the oldest retained access, which is the first access since
fewer than K entries exist) as tie-breaker.  With the history truncated to the
K most recent entries both cases read the oldest retained timestamp, which is
what the source's `Evict` minimises within each class. -/
def LRUKNode.GetKDistance (n : LRUKNode) (_k : Nat) : Nat :=
  n.history.getLastD 0

/-- State of `LRUKReplacer` (src/buffer/lru_k_replacer.cpp): `node_store_` is a
`std::map` iterated in ascending key order, hence a key-sorted association
list here. -/
structure LRUKReplacer where
  node_store : List (Int × LRUKNode)
  current_timestamp : Nat
  curr_size : Nat
  replacer_size : Nat
  k : Nat
deriving DecidableEq

/-- Lookup in `node_store_` (`std::map::find` / `count` / `at`). -/
def storeFind (l : List (Int × LRUKNode)) (f : Int) : Option LRUKNode :=
  (l.find? (fun p => decide (p.1 = f))).map (·.2)

/-- Insert-or-assign into the sorted association list (`std::map` emplace and
in-place node update collapse to this). -/
def storeInsert : List (Int × LRUKNode) → Int → LRUKNode → List (Int × LRUKNode)
  | [], f, n => [(f, n)]
  | (g, m) :: rest, f, n =>
    if f < g then (f, n) :: (g, m) :: rest
    else if f = g then (f, n) :: rest
    else (g, m) :: storeInsert rest f n

/-- Erase a key from `node_store_` (`std::map::erase`). -/
def storeErase (l : List (Int × LRUKNode)) (f : Int) : List (Int × LRUKNode) :=
  l.filter (fun p => decide (p.1 ≠ f))

/-- One iteration of the candidate scan in `LRUKReplacer::Evict`
(src/buffer/lru_k_replacer.cpp lines 28-47).  The accumulator mirrors the loop
variables `(f_id, dist, less_k)`. -/
def evictStep (k : Nat) (acc : Int × Nat × Bool) (p : Int × LRUKNode) : Int × Nat × Bool :=
  let f_id := acc.1
  let dist := acc.2.1
  let less_k := acc.2.2
  let u := p.1
  let v := p.2
  if v.is_evictable = false then (f_id, dist, less_k)
  else if v.GetK < k then
    if less_k = false then (u, v.GetKDistance k, true)
    else if v.GetKDistance k < dist then (u, v.GetKDistance k, true)
    else (f_id, dist, less_k)
  else
    if less_k = false ∧ v.GetKDistance k < dist then (u, v.GetKDistance k, less_k)
    else (f_id, dist, less_k)

/-- `LRUKReplacer::Evict` (src/buffer/lru_k_replacer.cpp lines 20-53).  Returns
`(found, frame_id, new state)`; on `found = false` the out-parameter is left at
the loop's initial `-1` and the state is unchanged.  `dist` starts at
`INT32_MAX = 2147483647` exactly as in the source. -/
def LRUKReplacer.Evict (r : LRUKReplacer) : Bool × Int × LRUKReplacer :=
  if r.curr_size = 0 then (false, -1, r)
  else
    let acc := r.node_store.foldl (evictStep r.k) (-1, 2147483647, false)
    (true, acc.1,
      { r with node_store := storeErase r.node_store acc.1, curr_size := r.curr_size - 1 })

/-- `LRUKReplacer::RecordAccess` (src/buffer/lru_k_replacer.cpp lines 55-66).
Returns `(threw, new state)`.  Note the source increments `current_timestamp_`
before the range check and that the range check is `frame_id >
replacer_size_`, a strict comparison. -/
def LRUKReplacer.RecordAccess (r : LRUKReplacer) (frame_id : Int) : Bool × LRUKReplacer :=
  let r1 := { r with current_timestamp := r.current_timestamp + 1 }
  if frame_id > (r.replacer_size : Int) then (true, r1)
  else
    let node :=
      match storeFind r1.node_store frame_id with
      | some n => n
      | none => { history := [], is_evictable := false }
    (false, { r1 with node_store := storeInsert r1.node_store frame_id (node.AddHistory r1.k r1.current_timestamp) })

/-- `LRUKReplacer::SetEvictable` (src/buffer/lru_k_replacer.cpp lines 68-82).
Returns `(threw, new state)`. -/
def LRUKReplacer.SetEvictable (r : LRUKReplacer) (frame_id : Int) (set_evictable : Bool) :
    Bool × LRUKReplacer :=
  match storeFind r.node_store frame_id with
  | some n =>
    if n.is_evictable = set_evictable then (false, r)
    else
      (false, { r with
        node_store := storeInsert r.node_store frame_id { n with is_evictable := set_evictable },
        curr_size := if set_evictable then r.curr_size + 1 else r.curr_size - 1 })
  | none => (true, r)

/-- `LRUKReplacer::Remove` (src/buffer/lru_k_replacer.cpp lines 84-94).
Returns `(threw, new state)`. -/
def LRUKReplacer.Remove (r : LRUKReplacer) (frame_id : Int) : Bool × LRUKReplacer :=
  match storeFind r.node_store frame_id with
  | none => (false, r)
  | some n =>
    if n.is_evictable = false then (true, r)
    else (false, { r with node_store := storeErase r.node_store frame_id, curr_size := r.curr_size - 1 })

/-- `LRUKReplacer::Size`. -/
def LRUKReplacer.Size (r : LRUKReplacer) : Nat :=
  r.curr_size

/-- The evictable nodes of a replacer state. -/
def LRUKReplacer.evictables (r : LRUKReplacer) : List (Int × LRUKNode) :=
  r.node_store.filter (fun p => p.2.is_evictable)

/-! ## Buffer pool manager (src/buffer/buffer_pool_manager.cpp)

Only the operations the claims mention are embedded: `UnpinPage` and
`DeletePage` (with `DeallocatePage` modelled from the spec).  Page byte
contents and disk I/O are outside the claims and are not modelled. -/

/-- Frame metadata of `Page` (pin count, dirty flag, resident page id). -/
structure Page where
  page_id : Int
  pin_count : Nat
  is_dirty : Bool
deriving DecidableEq

/-- `BufferPoolManager` state: the fixed frame array `pages_` is a total
function from frame index, `page_table_` maps page ids to frames, plus the free
list, the replacer, the next-page-id counter and the recycled id list
`free_ids_`. -/
structure BufferPoolManager where
  pool_size : Nat
  pages : Nat → Page
  page_table : Int → Option Nat
  free_list : List Nat
  replacer : LRUKReplacer
  next_page_id : Int
  free_ids : List Int

/-- `BufferPoolManager::UnpinPage` (src/buffer/buffer_pool_manager.cpp lines
121-139).  `none` models the `SetEvictable` exception escaping (impossible in
reachable states, where every resident frame is tracked by the replacer). -/
def BufferPoolManager.UnpinPage (s : BufferPoolManager) (page_id : Int) (is_dirty : Bool) :
    Option (Bool × BufferPoolManager) :=
  match s.page_table page_id with
  | none => some (false, s)
  | some fit =>
    let page := s.pages fit
    if page.pin_count = 0 then some (false, s)
    else
      let page1 := { page with
        pin_count := page.pin_count - 1,
        is_dirty := if is_dirty then is_dirty else page.is_dirty }
      let s1 := { s with pages := fun j => if j = fit then page1 else s.pages j }
      if page1.pin_count = 0 then
        match s1.replacer.SetEvictable (fit : Int) true with
        | (true, _) => none
        | (false, rep) => some (true, { s1 with replacer := rep })
      else some (true, s1)

/-- `BufferPoolManager::DeletePage` (src/buffer/buffer_pool_manager.cpp lines
167-185).  The frame reset performs `ResetMemory` (byte contents are not
modelled), clears the dirty flag and sets the resident page id to
`INVALID_PAGE_ID`.  `DeallocatePage` is modelled from the spec: "deallocates
the page-id (appended to recycled-ids)" (§4.3); its body is not in the sources.
`none` models the replacer `Remove` exception escaping. -/
def BufferPoolManager.DeletePage (s : BufferPoolManager) (page_id : Int) :
    Option (Bool × BufferPoolManager) :=
  match s.page_table page_id with
  | none => some (true, s)
  | some fit =>
    let page := s.pages fit
    if 0 < page.pin_count then some (false, s)
    else
      let page1 : Page := { page_id := -1, pin_count := page.pin_count, is_dirty := false }
      let s1 := { s with
        pages := fun j => if j = fit then page1 else s.pages j,
        page_table := fun q => if q = page_id then none else s.page_table q,
        free_list := s.free_list ++ [fit] }
      match s1.replacer.Remove (fit : Int) with
      | (true, _) => none
      | (false, rep) => some (true, { s1 with replacer := rep, free_ids := s1.free_ids ++ [page_id] })

/-! ## Extendible hash table pages

The header, directory and bucket page classes are not part of the sources
(only their callers are), so their primitives are modelled from the spec
(§3 data model and §4.5 derived indices).  The table logic itself
(`GetValue`, `Insert`, `InsertToNewDirectory`, `InsertToNewBucket`,
`UpdateDirectoryMapping`, `Remove`) is embedded from
src/container/disk/hash/disk_extendible_hash_table.cpp. -/

/-- Modelled from the spec: `ExtendibleHTableDirectoryPage` — global depth
`gd ∈ [0, directory_max_depth]`, per-slot local depths and bucket page ids,
with `2^gd` live slots (§3).  The fixed on-page arrays are total functions. -/
structure ExtendibleHTableDirectoryPage where
  max_depth : Nat
  global_depth : Nat
  local_depths : Nat → Nat
  bucket_page_ids : Nat → Int

namespace ExtendibleHTableDirectoryPage

/-- Modelled from the spec: a fresh directory has `gd = 0`, zero local depths
and invalid bucket page ids. -/
def Init (max_depth : Nat) : ExtendibleHTableDirectoryPage :=
  { max_depth := max_depth, global_depth := 0, local_depths := fun _ => 0,
    bucket_page_ids := fun _ => -1 }

/-- Modelled from the spec: `bucket_index(h) = low gd bits of h` (§4.5). -/
def HashToBucketIndex (d : ExtendibleHTableDirectoryPage) (h : Nat) : Nat :=
  h % 2 ^ d.global_depth

def GetBucketPageId (d : ExtendibleHTableDirectoryPage) (i : Nat) : Int :=
  d.bucket_page_ids i

def SetBucketPageId (d : ExtendibleHTableDirectoryPage) (i : Nat) (pid : Int) :
    ExtendibleHTableDirectoryPage :=
  { d with bucket_page_ids := fun j => if j = i then pid else d.bucket_page_ids j }

def GetLocalDepth (d : ExtendibleHTableDirectoryPage) (i : Nat) : Nat :=
  d.local_depths i

def GetGlobalDepth (d : ExtendibleHTableDirectoryPage) : Nat :=
  d.global_depth

def IncrLocalDepth (d : ExtendibleHTableDirectoryPage) (i : Nat) :
    ExtendibleHTableDirectoryPage :=
  { d with local_depths := fun j => if j = i then d.local_depths i + 1 else d.local_depths j }

def DecrLocalDepth (d : ExtendibleHTableDirectoryPage) (i : Nat) :
    ExtendibleHTableDirectoryPage :=
  { d with local_depths := fun j => if j = i then d.local_depths i - 1 else d.local_depths j }

/-- Modelled from the spec: "Doubling the directory duplicates slot pointers
and local depths" — "each new upper-half slot inherits from its lower-half
counterpart" (§4.5); a no-op once `gd` has reached `directory_max_depth`
(`gd ∈ [0, directory_max_depth]`, §3). -/
def IncrGlobalDepth (d : ExtendibleHTableDirectoryPage) : ExtendibleHTableDirectoryPage :=
  if d.max_depth ≤ d.global_depth then d
  else
    { d with
      global_depth := d.global_depth + 1,
      local_depths := fun i =>
        if 2 ^ d.global_depth ≤ i ∧ i < 2 ^ (d.global_depth + 1) then
          d.local_depths (i - 2 ^ d.global_depth)
        else d.local_depths i,
      bucket_page_ids := fun i =>
        if 2 ^ d.global_depth ≤ i ∧ i < 2 ^ (d.global_depth + 1) then
          d.bucket_page_ids (i - 2 ^ d.global_depth)
        else d.bucket_page_ids i }

def DecrGlobalDepth (d : ExtendibleHTableDirectoryPage) : ExtendibleHTableDirectoryPage :=
  { d with global_depth := d.global_depth - 1 }

/-- Modelled from the spec: `split_image_index(i, ld) = i XOR (1 << (ld - 1))`
at the slot's current local depth (§4.5). -/
def GetSplitImageIndex (d : ExtendibleHTableDirectoryPage) (i : Nat) : Nat :=
  i ^^^ 2 ^ (d.local_depths i - 1)

/-- Modelled from the spec: `local_depth_mask(ld) = (1 << ld) - 1` (§4.5). -/
def GetLocalDepthMask (d : ExtendibleHTableDirectoryPage) (i : Nat) : Nat :=
  2 ^ d.local_depths i - 1

/-- Modelled from the spec: "`gd` may shrink iff every `ld[i] < gd`" (§3);
at `gd = 0` slot 0 has `ld = gd`, so this is false and shrinking stops. -/
def CanShrink (d : ExtendibleHTableDirectoryPage) : Bool :=
  (List.range (2 ^ d.global_depth)).all (fun i => decide (d.local_depths i < d.global_depth))

end ExtendibleHTableDirectoryPage

/-- Modelled from the spec: `ExtendibleHTableBucketPage` — "ordered array of up
to `bucket_max_size` key/value pairs, keys unique within the bucket" (§3).
Keys and values are `Nat` (the `int/int` instantiation of the template; key
equality is the comparator). -/
structure ExtendibleHTableBucketPage where
  max_size : Nat
  entries : List (Nat × Nat)
deriving DecidableEq

namespace ExtendibleHTableBucketPage

def IsFull (b : ExtendibleHTableBucketPage) : Bool :=
  decide (b.max_size ≤ b.entries.length)

def IsEmpty (b : ExtendibleHTableBucketPage) : Bool :=
  b.entries.isEmpty

def Size (b : ExtendibleHTableBucketPage) : Nat :=
  b.entries.length

/-- Modelled from the spec: linear scan for the key with the comparator. -/
def Lookup (b : ExtendibleHTableBucketPage) (k : Nat) : Option Nat :=
  (b.entries.find? (fun e => decide (e.1 = k))).map (·.2)

/-- Modelled from the spec: insert fails on a full bucket or a duplicate key,
otherwise appends (§3: keys unique, at most `bucket_max_size` pairs). -/
def Insert (b : ExtendibleHTableBucketPage) (k v : Nat) : Bool × ExtendibleHTableBucketPage :=
  if b.IsFull then (false, b)
  else if (b.Lookup k).isSome then (false, b)
  else (true, { b with entries := b.entries ++ [(k, v)] })

/-- Modelled from the spec: remove the key's entry if present, keeping order. -/
def Remove (b : ExtendibleHTableBucketPage) (k : Nat) : Bool × ExtendibleHTableBucketPage :=
  if (b.Lookup k).isSome then
    (true, { b with entries := b.entries.eraseP (fun e => decide (e.1 = k)) })
  else (false, b)

end ExtendibleHTableBucketPage

/-- A page of the hash table's page store: a directory page or a bucket page.
(The single header page is kept inline in the table state.) -/
inductive HPage
  | dir (d : ExtendibleHTableDirectoryPage)
  | bucket (b : ExtendibleHTableBucketPage)

/-- `DiskExtendibleHashTable` state.  The header page (allocated as page 0 by
the constructor and never touched by the pool afterwards) is kept inline as
`header_dir_ids`; all other pages live in the page store, with `next_page_id`
and `recycled_ids` mirroring `AllocatePage`/`DeallocatePage` of the pool. -/
structure DiskExtendibleHashTable where
  header_max_depth : Nat
  directory_max_depth : Nat
  bucket_max_size : Nat
  header_dir_ids : Nat → Int
  pages : Int → Option HPage
  next_page_id : Int
  recycled_ids : List Int

namespace DiskExtendibleHashTable

/-- Modelled from the spec: `directory_index(h) = top header_max_depth bits of
h` (§4.5), for a 32-bit hash. -/
def HashToDirectoryIndex (s : DiskExtendibleHashTable) (h : Nat) : Nat :=
  h >>> (32 - s.header_max_depth)

/-- Fetch a page expected to be a directory.  `none` means the page does not
exist or holds a bucket: the C++ run would reinterpret garbage. -/
def fetchDir (s : DiskExtendibleHashTable) (pid : Int) : Option ExtendibleHTableDirectoryPage :=
  match s.pages pid with
  | some (.dir d) => some d
  | _ => none

/-- Fetch a page expected to be a bucket. -/
def fetchBucket (s : DiskExtendibleHashTable) (pid : Int) : Option ExtendibleHTableBucketPage :=
  match s.pages pid with
  | some (.bucket b) => some b
  | _ => none

/-- Write a page through its (write-guarded) id. -/
def setPage (s : DiskExtendibleHashTable) (pid : Int) (p : HPage) : DiskExtendibleHashTable :=
  { s with pages := fun q => if q = pid then some p else s.pages q }

/-- `BufferPoolManager::AllocatePage` as seen through `NewPageGuarded`
(src/buffer/buffer_pool_manager.cpp lines 187-195): pop a recycled id if any,
else take and bump `next_page_id_`. -/
def AllocatePage (s : DiskExtendibleHashTable) : Int × DiskExtendibleHashTable :=
  match s.recycled_ids with
  | [] => (s.next_page_id, { s with next_page_id := s.next_page_id + 1 })
  | id :: rest => (id, { s with recycled_ids := rest })

/-- `BufferPoolManager::DeletePage` as seen by the hash table: a page that is
still pinned by a live guard (its id is in `pins`) is not deleted and the call
returns false (src/buffer/buffer_pool_manager.cpp lines 167-185); an absent
page yields true with no change; otherwise the page is removed and its id
recycled. -/
def DeletePage (s : DiskExtendibleHashTable) (pins : List Int) (pid : Int) :
    Bool × DiskExtendibleHashTable :=
  match s.pages pid with
  | none => (true, s)
  | some _ =>
    if pid ∈ pins then (false, s)
    else
      (true, { s with
        pages := fun q => if q = pid then none else s.pages q,
        recycled_ids := s.recycled_ids ++ [pid] })

end DiskExtendibleHashTable

/-- `DiskExtendibleHashTable::UpdateDirectoryMapping`
(src/container/disk/hash/disk_extendible_hash_table.cpp lines 204-209): the
body only sets the single slot `new_bucket_idx`; `new_local_depth` and
`local_depth_mask` are accepted and ignored. -/
def UpdateDirectoryMapping (directory : ExtendibleHTableDirectoryPage)
    (new_bucket_idx : Nat) (new_bucket_page_id : Int)
    (_new_local_depth _local_depth_mask : Nat) : ExtendibleHTableDirectoryPage :=
  directory.SetBucketPageId new_bucket_idx new_bucket_page_id

namespace DiskExtendibleHashTable

/-- `DiskExtendibleHashTable::InsertToNewBucket` (lines 192-202): allocate and
initialise a bucket, point the directory slot at it, insert the pair. -/
def InsertToNewBucket (s : DiskExtendibleHashTable) (dir_page : Int)
    (directory : ExtendibleHTableDirectoryPage) (bucket_idx k v : Nat) :
    Bool × DiskExtendibleHashTable :=
  let a := s.AllocatePage
  let b0 : ExtendibleHTableBucketPage := { max_size := s.bucket_max_size, entries := [] }
  let ins := b0.Insert k v
  let d1 := directory.SetBucketPageId bucket_idx a.1
  (ins.1, (a.2.setPage a.1 (.bucket ins.2)).setPage dir_page (.dir d1))

/-- `DiskExtendibleHashTable::InsertToNewDirectory` (lines 178-190): allocate
and initialise a directory, register it in the header, then create the bucket. -/
def InsertToNewDirectory (s : DiskExtendibleHashTable) (directory_idx h k v : Nat) :
    Bool × DiskExtendibleHashTable :=
  let a := s.AllocatePage
  let d0 := ExtendibleHTableDirectoryPage.Init s.directory_max_depth
  let s2 := { a.2 with header_dir_ids := fun j => if j = directory_idx then a.1 else a.2.header_dir_ids j }
  let s3 := s2.setPage a.1 (.dir d0)
  s3.InsertToNewBucket a.1 d0 (d0.HashToBucketIndex h) k v

/-- The redistribution loop of `Insert` (lines 139-158): each entry of the old
bucket is re-hashed; if its slot now points at the split bucket it is moved
there, otherwise the source asserts it still points at the old bucket (`none`
models that assert failing). -/
def redistribute (hash : Nat → Nat) (d : ExtendibleHTableDirectoryPage)
    (split_id bucket_page : Int) :
    List (Nat × Nat) → ExtendibleHTableBucketPage → ExtendibleHTableBucketPage →
    Option (ExtendibleHTableBucketPage × ExtendibleHTableBucketPage)
  | [], sb, b => some (sb, b)
  | e :: rest, sb, b =>
    let idx := d.HashToBucketIndex (hash e.1)
    let pg := d.GetBucketPageId idx
    if pg = split_id then
      redistribute hash d split_id bucket_page rest (sb.Insert e.1 e.2).2 (b.Remove e.1).2
    else if pg = bucket_page then redistribute hash d split_id bucket_page rest sb b
    else none

/-- Result of one overflow-handling round of `Insert`. -/
inductive SplitRes
  | fail
  | retFalse (s : DiskExtendibleHashTable)
  | done (s : DiskExtendibleHashTable)
  | again (s : DiskExtendibleHashTable)

/-- The body of the overflow branch of `DiskExtendibleHashTable::Insert`
(lines 127-175), after the global-depth adjustment: raise the local depths of
the slot and its split image (asserting they agree), allocate the sibling
bucket, retarget the single split-image slot via `UpdateDirectoryMapping`,
redistribute, then retry the insertion; `again` is the source's recursive
`return Insert(key, value, transaction)`. -/
def splitCore (s : DiskExtendibleHashTable) (hash : Nat → Nat) (dir_page : Int)
    (d1 : ExtendibleHTableDirectoryPage) (bucket_idx : Nat) (bucket_page : Int)
    (B : ExtendibleHTableBucketPage) (k v : Nat) : SplitRes :=
  let d2 := d1.IncrLocalDepth bucket_idx
  let a := s.AllocatePage
  let split_id := a.1
  let sb : ExtendibleHTableBucketPage := { max_size := s.bucket_max_size, entries := [] }
  let mask := d2.GetLocalDepthMask bucket_idx
  let split_idx := d2.GetSplitImageIndex bucket_idx
  let d3 := d2.IncrLocalDepth split_idx
  if d3.GetLocalDepth bucket_idx ≠ d3.GetLocalDepth split_idx then .fail
  else
    let d4 := UpdateDirectoryMapping d3 split_idx split_id (d3.GetLocalDepth split_idx) mask
    match redistribute hash d4 split_id bucket_page B.entries sb B with
    | none => .fail
    | some red =>
      let insert_idx := d4.HashToBucketIndex (hash k)
      let insert_page := d4.GetBucketPageId insert_idx
      if insert_page = split_id then
        let ins := red.1.Insert k v
        let s2 := ((a.2.setPage dir_page (.dir d4)).setPage bucket_page (.bucket red.2)).setPage split_id (.bucket ins.2)
        if ins.1 then .done s2 else .again s2
      else if insert_page = bucket_page then
        let ins := red.2.Insert k v
        let s2 := ((a.2.setPage dir_page (.dir d4)).setPage bucket_page (.bucket ins.2)).setPage split_id (.bucket red.1)
        if ins.1 then .done s2 else .again s2
      else .fail

/-- The overflow branch of `DiskExtendibleHashTable::Insert` (lines 118-175):
raise the global depth if the overflowing slot's local depth has caught up
with it, returning false when the directory cannot grow (lines 120-126), then
run the split via `splitCore`. -/
def splitInsert (s : DiskExtendibleHashTable) (hash : Nat → Nat) (dir_page : Int)
    (d : ExtendibleHTableDirectoryPage) (bucket_idx : Nat) (bucket_page : Int)
    (B : ExtendibleHTableBucketPage) (k v : Nat) : SplitRes :=
  let d1 := if d.GetLocalDepth bucket_idx = d.GetGlobalDepth then d.IncrGlobalDepth else d
  if d1.GetLocalDepth bucket_idx = d1.GetGlobalDepth then .retFalse (s.setPage dir_page (.dir d1))
  else splitCore s hash dir_page d1 bucket_idx bucket_page B k v

/-- Result of `Insert`: a returned boolean with the final state, an assertion
failure, or fuel exhaustion of the modelled recursion. -/
inductive IRes
  | ok (b : Bool) (s : DiskExtendibleHashTable)
  | assertFail
  | noFuel

/-- `DiskExtendibleHashTable::Insert` (lines 86-176) with explicit fuel for the
source's tail recursion. -/
def insertGo (hash : Nat → Nat) : Nat → DiskExtendibleHashTable → Nat → Nat → IRes
  | 0, _, _, _ => .noFuel
  | fuel + 1, s, k, v =>
    let h := hash k
    let dir_idx := s.HashToDirectoryIndex h
    let dir_page := s.header_dir_ids dir_idx
    if dir_page = -1 then
      let r := s.InsertToNewDirectory dir_idx h k v
      .ok r.1 r.2
    else
      match s.fetchDir dir_page with
      | none => .assertFail
      | some d =>
        let bucket_idx := d.HashToBucketIndex h
        let bucket_page := d.GetBucketPageId bucket_idx
        if bucket_page = -1 then
          let r := s.InsertToNewBucket dir_page d bucket_idx k v
          .ok r.1 r.2
        else
          match s.fetchBucket bucket_page with
          | none => .assertFail
          | some B =>
            let ins := B.Insert k v
            if ins.1 then .ok true (s.setPage bucket_page (.bucket ins.2))
            else if (B.Lookup k).isSome then .ok false s
            else if B.IsFull = false then .assertFail
            else
              match s.splitInsert hash dir_page d bucket_idx bucket_page B k v with
              | .fail => .assertFail
              | .retFalse s1 => .ok false s1
              | .done s1 => .ok true s1
              | .again s1 => insertGo hash fuel s1 k v

/-- Public `Insert`: each recursion round raises the local depth of the slot
the key hashes to, which is bounded by `directory_max_depth`, so
`directory_max_depth + 2` rounds of fuel cover every run from a well-formed
state. -/
def Insert (s : DiskExtendibleHashTable) (hash : Nat → Nat) (k v : Nat) : IRes :=
  insertGo hash (s.directory_max_depth + 2) s k v

/-- `DiskExtendibleHashTable::GetValue` (lines 53-79): `some (found, result')`
with the value appended on a hit; `none` models a fetch of a nonexistent page. -/
def GetValue (s : DiskExtendibleHashTable) (hash : Nat → Nat) (k : Nat) (result : List Nat) :
    Option (Bool × List Nat) :=
  let h := hash k
  let dir_id := s.header_dir_ids (s.HashToDirectoryIndex h)
  if dir_id = -1 then some (false, result)
  else
    match s.fetchDir dir_id with
    | none => none
    | some d =>
      let bucket_id := d.GetBucketPageId (d.HashToBucketIndex h)
      if bucket_id = -1 then some (false, result)
      else
        match s.fetchBucket bucket_id with
        | none => none
        | some B =>
          match B.Lookup k with
          | some v => some (true, result ++ [v])
          | none => some (false, result)

/-- The coalescing loop of `DiskExtendibleHashTable::Remove` (lines 245-274).
`pins` is the multiset of page ids pinned by live guards (the directory guard
and the current bucket guard on entry; the split guard while it lives).
`indexes` accumulates across iterations exactly as the source's vector does.
Each merging iteration decrements the positive local depth of the current
slot, so `local depth + 1` fuel covers the loop. -/
def removeLoop (hash : Nat → Nat) :
    Nat → DiskExtendibleHashTable → List Int → ExtendibleHTableDirectoryPage →
    Nat → Int → List Nat →
    Option (ExtendibleHTableDirectoryPage × DiskExtendibleHashTable)
  | 0, _, _, _, _, _, _ => none
  | fuel + 1, s, pins, d, bucket_idx, bucket_page, indexes =>
    if d.GetLocalDepth bucket_idx = 0 then some (d, s)
    else
      let split_idx := d.GetSplitImageIndex bucket_idx
      if d.GetLocalDepth bucket_idx ≠ d.GetLocalDepth split_idx then some (d, s)
      else
        let split_page := d.GetBucketPageId split_idx
        match s.fetchBucket split_page, s.fetchBucket bucket_page with
        | none, _ => none
        | _, none => none
        | some splitB, some B =>
          if B.IsEmpty = false ∧ splitB.IsEmpty = false then some (d, s)
          else
            let pins1 := split_page :: pins
            let indexes1 := indexes ++ [split_idx]
            let set_page := if B.IsEmpty then split_page else bucket_page
            let d1 := indexes1.foldl
              (fun dd idx => (dd.DecrLocalDepth idx).SetBucketPageId idx set_page) d
            if B.IsEmpty then
              let del := s.DeletePage pins1 bucket_page
              removeLoop hash fuel del.2 (pins1.erase bucket_page) d1 split_idx split_page indexes1
            else
              let del := s.DeletePage pins1 split_page
              removeLoop hash fuel del.2 (pins1.erase split_page) d1 bucket_idx bucket_page indexes1

/-- The shrink loop of `Remove` (lines 276-278); each round decrements the
global depth, so `gd + 1` fuel covers it. -/
def shrinkLoop : Nat → ExtendibleHTableDirectoryPage → ExtendibleHTableDirectoryPage
  | 0, d => d
  | fuel + 1, d => if d.CanShrink then shrinkLoop fuel d.DecrGlobalDepth else d

/-- `DiskExtendibleHashTable::Remove` (lines 214-280). -/
def Remove (s : DiskExtendibleHashTable) (hash : Nat → Nat) (k : Nat) :
    Option (Bool × DiskExtendibleHashTable) :=
  let h := hash k
  let dir_page := s.header_dir_ids (s.HashToDirectoryIndex h)
  if dir_page = -1 then some (false, s)
  else
    match s.fetchDir dir_page with
    | none => none
    | some d =>
      let bucket_idx := d.HashToBucketIndex h
      let bucket_page := d.GetBucketPageId bucket_idx
      if bucket_page = -1 then some (false, s)
      else
        match s.fetchBucket bucket_page with
        | none => none
        | some B =>
          let rem := B.Remove k
          if rem.1 = false then some (false, s)
          else
            let s1 := s.setPage bucket_page (.bucket rem.2)
            match removeLoop hash (d.GetLocalDepth bucket_idx + 1) s1
                [dir_page, bucket_page] d bucket_idx bucket_page [bucket_idx] with
            | none => none
            | some r =>
              let d2 := shrinkLoop (r.1.GetGlobalDepth + 1) r.1
              some (true, r.2.setPage dir_page (.dir d2))

end DiskExtendibleHashTable

/-- Directory invariant from the spec (§3): live slots `i`, `j` point to the
same bucket iff `i ≡ j (mod 2^ld[i])` and `ld[i] = ld[j]`. -/
def ExtendibleHTableDirectoryPage.invariantHolds (d : ExtendibleHTableDirectoryPage) : Bool :=
  (List.range (2 ^ d.global_depth)).all fun i =>
    (List.range (2 ^ d.global_depth)).all fun j =>
      (decide (d.bucket_page_ids i = d.bucket_page_ids j)) =
        decide (i % 2 ^ d.local_depths i = j % 2 ^ d.local_depths i ∧
                d.local_depths i = d.local_depths j)

/-- The identity hash, used by the concrete scenarios (spec §8: "hash = self"). -/
def idHash : Nat → Nat := fun n => n

/-- A freshly constructed table (lines 33-48): the constructor takes page 0 for
the header, whose slots are all `INVALID_PAGE_ID`. -/
def newTable (hmax dmax bmax : Nat) : DiskExtendibleHashTable :=
  { header_max_depth := hmax, directory_max_depth := dmax, bucket_max_size := bmax,
    header_dir_ids := fun _ => -1, pages := fun _ => none,
    next_page_id := 1, recycled_ids := [] }

/-- Run one `Insert`, keeping the state (used to build concrete scenarios). -/
def insStep (hash : Nat → Nat) (s : DiskExtendibleHashTable) (k v : Nat) :
    DiskExtendibleHashTable :=
  match s.Insert hash k v with
  | .ok _ s1 => s1
  | _ => s

/-- Did this `Insert` run return the boolean `b`? -/
def DiskExtendibleHashTable.IRes.returned : DiskExtendibleHashTable.IRes → Bool → Bool
  | .ok b _, b' => b = b'
  | _, _ => false

/-- Run one `Remove`, keeping the state. -/
def rmStep (hash : Nat → Nat) (s : DiskExtendibleHashTable) (k : Nat) :
    DiskExtendibleHashTable :=
  match s.Remove hash k with
  | some r => r.2
  | none => s

/-! ### Concrete scenario states -/

/-- Scenario for C1: `header_max_depth = 1`, `directory_max_depth = 3`,
`bucket_max_size = 1`, identity hash, inserting keys 0, 2, 4, 1, 3. -/
def c1T0 : DiskExtendibleHashTable := newTable 1 3 1

def c1T1 : DiskExtendibleHashTable := insStep idHash c1T0 0 0

def c1T2 : DiskExtendibleHashTable := insStep idHash c1T1 2 2

def c1T3 : DiskExtendibleHashTable := insStep idHash c1T2 4 4

def c1T4 : DiskExtendibleHashTable := insStep idHash c1T3 1 1

def c1T5 : DiskExtendibleHashTable := insStep idHash c1T4 3 3

/-- Scenario for C2: `header_max_depth = 1`, `directory_max_depth = 2`,
`bucket_max_size = 1`, identity hash, inserting keys 0, 2 and removing 0. -/
def c2T0 : DiskExtendibleHashTable := newTable 1 2 1

def c2T1 : DiskExtendibleHashTable := insStep idHash c2T0 0 0

def c2T2 : DiskExtendibleHashTable := insStep idHash c2T1 2 2

def c2T3 : DiskExtendibleHashTable := rmStep idHash c2T2 0

/-- Scenario for C3/C5: a replacer of capacity 10 with `k = 2`
(spec §8, scenario 2). -/
def rEmpty : LRUKReplacer :=
  { node_store := [], current_timestamp := 0, curr_size := 0, replacer_size := 10, k := 2 }

/-- Record one access, keeping the state. -/
def raStep (r : LRUKReplacer) (f : Int) : LRUKReplacer :=
  (r.RecordAccess f).2

/-- Set a frame evictable, keeping the state. -/
def seStep (r : LRUKReplacer) (f : Int) : LRUKReplacer :=
  (r.SetEvictable f true).2

/-- Accesses to frames 1, 2, 3, 1, 2 at timestamps 1..5, all set evictable. -/
def rScenario : LRUKReplacer :=
  seStep (seStep (seStep (raStep (raStep (raStep (raStep (raStep rEmpty 1) 2) 3) 1) 2) 1) 2) 3

/-! ### Well-formedness predicates -/

/-- Frame lookup in the replacer. -/
def hasNode (r : LRUKReplacer) (f : Int) : Bool :=
  (storeFind r.node_store f).isSome

/-- Evictable flag of a tracked frame. -/
def nodeEvictable (r : LRUKReplacer) (f : Int) : Option Bool :=
  (storeFind r.node_store f).map (·.is_evictable)

/-- A frame on which the replacer's `Remove` cannot throw: untracked or
evictable. -/
def nodeRemovable (r : LRUKReplacer) (f : Int) : Bool :=
  match storeFind r.node_store f with
  | none => true
  | some n => n.is_evictable

/-- Allocation well-formedness of a table state: recycled ids empty (no
`DeletePage` ever succeeds at the hash-table layer, since the page is pinned by
its guard), nonnegative id counter, and all live page ids below it, so fresh
allocations never collide.  Every reachable table state satisfies this. -/
structure FreshWF (s : DiskExtendibleHashTable) : Prop where
  recycled : s.recycled_ids = []
  next_nonneg : 0 ≤ s.next_page_id
  fresh : ∀ id, s.pages id ≠ none → id < s.next_page_id

/-- Directory well-formedness (spec §3): depth capacity matches the table's
`directory_max_depth`, `gd ≤ directory_max_depth`, and every live slot has
`ld[i] ≤ gd`. -/
def DirWF (maxD : Nat) (d : ExtendibleHTableDirectoryPage) : Prop :=
  d.max_depth = maxD ∧ d.global_depth ≤ maxD ∧
    ∀ i, i < 2 ^ d.global_depth → d.local_depths i ≤ d.global_depth

/-- All directory pages of the table are well formed. -/
def DirsWF (s : DiskExtendibleHashTable) : Prop :=
  ∀ id d, s.fetchDir id = some d → DirWF s.directory_max_depth d

/-- Local depth of the slot the key's hash routes to (0 when no directory is
reachable); the measure that increases with every recursive `Insert` round. -/
def routedLd (hash : Nat → Nat) (s : DiskExtendibleHashTable) (k : Nat) : Nat :=
  match s.fetchDir (s.header_dir_ids (s.HashToDirectoryIndex (hash k))) with
  | some d => d.GetLocalDepth (d.HashToBucketIndex (hash k))
  | none => 0

/-- Invariant of the candidate scan in `Evict`: after folding `evictStep`
over the node list `l`, the accumulator `(f_id, dist, less_k)` holds the best
candidate of `l` under the k-distance policy — if `less_k` is set, the
infinite-distance (fewer than k accesses) candidate with the minimal retained
oldest timestamp; otherwise every evictable node seen has at least k accesses
and the candidate minimises the k-th-most-recent timestamp, i.e. maximises the
backward k-distance. -/
def scanInv (k : Nat) (l : List (Int × LRUKNode)) (acc : Int × Nat × Bool) : Prop :=
  (acc.2.2 = true →
    ∃ n, (acc.1, n) ∈ l ∧ n.is_evictable = true ∧ n.GetK < k ∧
      acc.2.1 = n.GetKDistance k ∧
      ∀ p ∈ l, p.2.is_evictable = true → p.2.GetK < k → acc.2.1 ≤ p.2.GetKDistance k) ∧
  (acc.2.2 = false →
    (∀ p ∈ l, p.2.is_evictable = true → k ≤ p.2.GetK) ∧
    ((acc.1 = -1 ∧ acc.2.1 = 2147483647 ∧ ∀ p ∈ l, p.2.is_evictable = false) ∨
     (∃ n, (acc.1, n) ∈ l ∧ n.is_evictable = true ∧
        acc.2.1 = n.GetKDistance k ∧ acc.2.1 < 2147483647 ∧
        ∀ p ∈ l, p.2.is_evictable = true → acc.2.1 ≤ p.2.GetKDistance k)))

/-- The table routes key `k` to a live bucket holding value `v`: the header
slot of the key's hash names a directory, whose slot for the hash names a
bucket, in which the lookup finds `v`.  This is exactly the path `GetValue`
walks. -/
def RoutesTo (hash : Nat → Nat) (s : DiskExtendibleHashTable) (k v : Nat) : Prop :=
  ∃ dp d bp B,
    s.header_dir_ids (s.HashToDirectoryIndex (hash k)) = dp ∧ dp ≠ -1 ∧
    s.fetchDir dp = some d ∧
    d.GetBucketPageId (d.HashToBucketIndex (hash k)) = bp ∧ bp ≠ -1 ∧
    s.fetchBucket bp = some B ∧ B.Lookup k = some v

/-! ## Theorems -/

/-- C1: counter-evidence.  From the fresh table (`header_max_depth = 1`,
`directory_max_depth = 3`, `bucket_max_size = 1`, identity hash) the completed
inserts of keys 0, 2, 4, 1, 3 all return true, yet afterwards directory slots
3 and 5 both point at bucket page 3 while their local depths are 2 and 1: the
split at slot 3 retargeted only the single split-image slot 1, leaving slot 5
(which shares the low two bits of the image index) on the old bucket, so the
spec's directory invariant fails on the reachable post-`Insert` state. -/
theorem c1_split_breaks_directory_invariant :
    ((c1T0.Insert idHash 0 0).returned true = true) ∧
    ((c1T1.Insert idHash 2 2).returned true = true) ∧
    ((c1T2.Insert idHash 4 4).returned true = true) ∧
    ((c1T3.Insert idHash 1 1).returned true = true) ∧
    ((c1T4.Insert idHash 3 3).returned true = true) ∧
    ((c1T5.fetchDir 1).map (fun d =>
        (d.global_depth, d.local_depths 3, d.local_depths 5,
         d.bucket_page_ids 3, d.bucket_page_ids 5, d.invariantHolds)) =
      some (3, 2, 1, 3, 3, false)) := by
  refine ⟨?_, ?_, ?_, ?_, ?_, ?_⟩ <;> decide

/-- C2: counter-evidence.  From the fresh table (`directory_max_depth = 2`,
`bucket_max_size = 1`, identity hash) insert 0 and 2, then remove 0.  The
remove succeeds and coalesces twice; at the second coalesce the surviving
bucket is page 4 and the orphan is the empty page 3, yet directory slot 1 —
which points at page 3 — keeps pointer 3 and local depth 1 (only the slots in
the accumulated `indexes` vector are rewritten), and both `DeletePage` calls
fail because the buckets are still pinned by the live page guards, so pages 2
and 3 both stay in the pool and no page id is ever recycled. -/
theorem c2_merge_stale_slot_and_orphan_not_deleted :
    ((c2T0.Insert idHash 0 0).returned true = true) ∧
    ((c2T1.Insert idHash 2 2).returned true = true) ∧
    ((c2T2.Remove idHash 0).map (·.1) = some true) ∧
    ((c2T3.fetchDir 1).map (fun d =>
        (d.global_depth, d.local_depths 0, d.local_depths 1,
         d.bucket_page_ids 0, d.bucket_page_ids 1)) = some (1, 0, 1, 4, 3)) ∧
    ((c2T3.fetchBucket 2).map (·.entries) = some []) ∧
    ((c2T3.fetchBucket 3).map (·.entries) = some []) ∧
    ((c2T3.fetchBucket 4).map (·.entries) = some [(2, 2)]) ∧
    (c2T3.recycled_ids = []) := by
  refine ⟨?_, ?_, ?_, ?_, ?_, ?_, ?_, ?_⟩ <;> decide

/-- C5: counter-evidence.  On a replacer of capacity 10 the source's range
check is `frame_id > replacer_size_`, so `RecordAccess(10)` with
`frame_id = replacer_size` does not throw — it records the access and creates
node 10 — although the claim requires the invalid-frame error for every
`frame_id ≥ replacer_size`; `RecordAccess(11)` does throw. -/
theorem c5_record_access_accepts_boundary_frame :
    ((rEmpty.RecordAccess 10).1 = false) ∧
    (hasNode (rEmpty.RecordAccess 10).2 10 = true) ∧
    ((rEmpty.RecordAccess 10).2.current_timestamp = 1) ∧
    ((10 : Int) ≥ (rEmpty.replacer_size : Int)) ∧
    ((rEmpty.RecordAccess 11).1 = true) := by
  refine ⟨?_, ?_, ?_, ?_, ?_⟩ <;> decide

/-- Unfolding `storeFind` over a cons cell. -/
theorem storeFind_cons (g : Int) (m : LRUKNode) (rest : List (Int × LRUKNode)) (f : Int) :
    storeFind ((g, m) :: rest) f = if g = f then some m else storeFind rest f := by
  by_cases hgf : g = f <;> simp [storeFind, List.find?, hgf]

/-- `storeInsert` really stores the node under the key. -/
theorem storeFind_storeInsert_self (l : List (Int × LRUKNode)) (f : Int) (n : LRUKNode) :
    storeFind (storeInsert l f n) f = some n := by
  induction l with
  | nil => simp [storeInsert, storeFind, List.find?]
  | cons p rest ih =>
    obtain ⟨g, m⟩ := p
    simp only [storeInsert]
    split
    · simp [storeFind, List.find?]
    · split
      · next hfg => simp [storeFind_cons, hfg]
      · next hlt hne => rw [storeFind_cons, if_neg (fun hh => hne hh.symm), ih]

/-- `storeErase` removes the key. -/
theorem storeFind_storeErase_self (l : List (Int × LRUKNode)) (f : Int) :
    storeFind (storeErase l f) f = none := by
  induction l with
  | nil => simp [storeErase, storeFind]
  | cons p rest ih =>
    obtain ⟨g, m⟩ := p
    simp only [storeErase, List.filter_cons, ne_eq, decide_not] at ih ⊢
    by_cases hgf : g = f
    · simpa [hgf] using ih
    · simp [hgf, storeFind_cons, ih]

/-- After a successful `SetEvictable(frame, true)` the node is marked
evictable; the call throws only on untracked frames. -/
theorem setEvictable_true_marks (r : LRUKReplacer) (f : Int) (hn : hasNode r f = true) :
    (r.SetEvictable f true).1 = false ∧ nodeEvictable (r.SetEvictable f true).2 f = some true := by
  unfold hasNode at hn
  unfold LRUKReplacer.SetEvictable
  cases hfind : storeFind r.node_store f with
  | none => rw [hfind] at hn; simp at hn
  | some n =>
    simp only [hfind]
    by_cases he : n.is_evictable = true
    · simp [he, nodeEvictable, hfind]
    · simp [he, nodeEvictable, storeFind_storeInsert_self]

/-- The replacer's `Remove` does not throw on an untracked or evictable frame
and afterwards the frame is untracked. -/
theorem replacer_remove_ok (r : LRUKReplacer) (f : Int) (hn : nodeRemovable r f = true) :
    (r.Remove f).1 = false ∧ storeFind (r.Remove f).2.node_store f = none := by
  unfold nodeRemovable at hn
  unfold LRUKReplacer.Remove
  cases hfind : storeFind r.node_store f with
  | none => simp [hfind]
  | some n =>
    rw [hfind] at hn
    simp only [] at hn
    simp [hfind, hn, storeFind_storeErase_self]

/-- C10: `GetValue` appends exactly one element to the result vector when it
returns true, and leaves it unchanged when it returns false, whether the miss
is at the header, the directory, or the bucket scan. -/
theorem c10_getvalue_frame_effect (s : DiskExtendibleHashTable) (hash : Nat → Nat) (k : Nat)
    (result : List Nat) (b : Bool) (res' : List Nat)
    (h : s.GetValue hash k result = some (b, res')) :
    (b = true → ∃ v, res' = result ++ [v]) ∧ (b = false → res' = result) := by
  simp only [DiskExtendibleHashTable.GetValue] at h
  split at h
  · simp only [Option.some.injEq, Prod.mk.injEq] at h
    refine ⟨fun hb => ?_, fun hb => ?_⟩ <;> simp_all
  · split at h
    next => simp at h
    next d =>
      split at h
      · simp only [Option.some.injEq, Prod.mk.injEq] at h
        refine ⟨fun hb => ?_, fun hb => ?_⟩ <;> simp_all
      · split at h
        next => simp at h
        next B =>
          split at h
          next v hv =>
            simp only [Option.some.injEq, Prod.mk.injEq] at h
            refine ⟨fun hb => ⟨v, ?_⟩, fun hb => ?_⟩ <;> simp_all
          next =>
            simp only [Option.some.injEq, Prod.mk.injEq] at h
            refine ⟨fun hb => ?_, fun hb => ?_⟩ <;> simp_all

/-- C10 witness: on the one-entry table the lookup of key 0 returns true and
appends exactly its value. -/
theorem c10_getvalue_frame_effect_witness :
    (true = true → ∃ v, ([0] : List Nat) = [] ++ [v]) ∧
      (true = false → ([0] : List Nat) = []) :=
  c10_getvalue_frame_effect c1T1 idHash 0 [] true [0] (by decide)



/-- C8: `UnpinPage` returns false exactly when the page is absent or its pin
count is already 0 (changing nothing); otherwise it decrements the pin count,
OR's the dirty flag (never clearing it), and marks the frame evictable exactly
when the pin count reaches 0.  The hypothesis is the spec §3 invariant that
every resident frame is tracked by the replacer. -/
theorem c8_unpinpage_spec (s : BufferPoolManager) (page_id : Int) (is_dirty : Bool)
    (hrep : (s.page_table page_id).all (fun (fit : Nat) => hasNode s.replacer (fit : Int)) = true) :
    match s.UnpinPage page_id is_dirty with
    | none => False
    | some (b, s') =>
      ((b = false) ↔ s.page_table page_id = none ∨
          ∃ fit, s.page_table page_id = some fit ∧ (s.pages fit).pin_count = 0) ∧
      (b = false → s' = s) ∧
      (∀ fit, s.page_table page_id = some fit → 0 < (s.pages fit).pin_count →
        b = true ∧
        (s'.pages fit).pin_count = (s.pages fit).pin_count - 1 ∧
        (s'.pages fit).is_dirty = ((s.pages fit).is_dirty || is_dirty) ∧
        (s'.pages fit).page_id = (s.pages fit).page_id ∧
        (∀ j, j ≠ fit → s'.pages j = s.pages j) ∧
        s'.page_table = s.page_table ∧ s'.free_list = s.free_list ∧
        s'.free_ids = s.free_ids ∧
        ((s.pages fit).pin_count = 1 → nodeEvictable s'.replacer (fit : Int) = some true) ∧
        (1 < (s.pages fit).pin_count → s'.replacer = s.replacer)) := by
  cases hpt : s.page_table page_id with
  | none =>
    have hrun : s.UnpinPage page_id is_dirty = some (false, s) := by
      unfold BufferPoolManager.UnpinPage
      rw [hpt]
    rw [hrun]
    refine ⟨⟨fun _ => Or.inl rfl, fun _ => rfl⟩, fun _ => rfl, ?_⟩
    intro fit hfit
    exact absurd hfit (by simp)
  | some fit0 =>
    rw [hpt] at hrep
    simp only [Option.all] at hrep
    by_cases hpc : (s.pages fit0).pin_count = 0
    · have hrun : s.UnpinPage page_id is_dirty = some (false, s) := by
        unfold BufferPoolManager.UnpinPage
        rw [hpt]
        simp [hpc]
      rw [hrun]
      refine ⟨⟨fun _ => Or.inr ⟨fit0, rfl, hpc⟩, fun _ => rfl⟩, fun _ => rfl, ?_⟩
      intro fit hfit hpos
      injection hfit with h'
      subst h'
      omega
    · have hiff : (true = false) ↔ ((some fit0 : Option Nat) = none ∨
          ∃ fit, (some fit0 : Option Nat) = some fit ∧ (s.pages fit).pin_count = 0) := by
        constructor
        · intro hh; exact absurd hh (by decide)
        · rintro (h | ⟨fit, hfit, hz⟩)
          · exact Option.noConfusion h
          · injection hfit with h'; subst h'; exact absurd hz hpc
      by_cases hone : (s.pages fit0).pin_count = 1
      · obtain ⟨hth, hmark⟩ := setEvictable_true_marks s.replacer (fit0 : Int) hrep
        cases hse : s.replacer.SetEvictable (fit0 : Int) true with
        | mk thr rep =>
          rw [hse] at hth hmark
          simp only [] at hth hmark
          subst hth
          have hrun : s.UnpinPage page_id is_dirty = some (true,
              { s with
                pages := fun j => if j = fit0 then
                    { page_id := (s.pages fit0).page_id,
                      pin_count := (s.pages fit0).pin_count - 1,
                      is_dirty := if is_dirty then is_dirty else (s.pages fit0).is_dirty }
                  else s.pages j,
                replacer := rep }) := by
            unfold BufferPoolManager.UnpinPage
            rw [hpt]
            simp only [if_neg hpc]
            rw [if_pos (by omega : (s.pages fit0).pin_count - 1 = 0), hse]
          rw [hrun]
          refine ⟨hiff, fun hh => absurd hh (by decide), ?_⟩
          intro fit hfit hpos
          injection hfit with h'
          subst h'
          refine ⟨rfl, by simp, by cases is_dirty <;> simp, by simp, fun j hj => by simp [hj],
            rfl, rfl, rfl, fun _ => by simpa using hmark, fun hgt => by omega⟩
      · have hrun : s.UnpinPage page_id is_dirty = some (true,
            { s with
              pages := fun j => if j = fit0 then
                  { page_id := (s.pages fit0).page_id,
                    pin_count := (s.pages fit0).pin_count - 1,
                    is_dirty := if is_dirty then is_dirty else (s.pages fit0).is_dirty }
                else s.pages j }) := by
          unfold BufferPoolManager.UnpinPage
          rw [hpt]
          simp only [if_neg hpc]
          rw [if_neg (by omega : ¬((s.pages fit0).pin_count - 1 = 0))]
        rw [hrun]
        refine ⟨hiff, fun hh => absurd hh (by decide), ?_⟩
        intro fit hfit hpos
        injection hfit with h'
        subst h'
        refine ⟨rfl, by simp, by cases is_dirty <;> simp, by simp, fun j hj => by simp [hj],
          rfl, rfl, rfl, fun h1 => absurd h1 hone, fun _ => rfl⟩

/-- C9: `DeletePage` returns true on an absent page (no change), false on a
pinned page (no change), and otherwise resets the frame, removes the
page-table entry, appends the frame to the free list, removes the frame from
the replacer and appends the page id to the recycled-id list.  The hypothesis
is the reachable-state invariant that a resident frame whose pin count is 0
is untracked or evictable in the replacer (frames become evictable exactly
when unpinned to zero), required only in that case: the absent-page and
pinned-page branches hold for every state whatsoever. -/
theorem c9_deletepage_spec (s : BufferPoolManager) (page_id : Int)
    (hrep : ∀ fit, s.page_table page_id = some fit → (s.pages fit).pin_count = 0 →
      nodeRemovable s.replacer (fit : Int) = true) :
    match s.DeletePage page_id with
    | none => False
    | some (b, s') =>
      (s.page_table page_id = none → b = true ∧ s' = s) ∧
      (∀ fit, s.page_table page_id = some fit → 0 < (s.pages fit).pin_count →
        b = false ∧ s' = s) ∧
      (∀ fit, s.page_table page_id = some fit → (s.pages fit).pin_count = 0 →
        b = true ∧
        (s'.pages fit).page_id = -1 ∧ (s'.pages fit).is_dirty = false ∧
        (s'.pages fit).pin_count = 0 ∧
        s'.page_table page_id = none ∧
        (∀ q, q ≠ page_id → s'.page_table q = s.page_table q) ∧
        s'.free_list = s.free_list ++ [fit] ∧
        storeFind s'.replacer.node_store (fit : Int) = none ∧
        s'.free_ids = s.free_ids ++ [page_id]) := by
  cases hpt : s.page_table page_id with
  | none =>
    have hrun : s.DeletePage page_id = some (true, s) := by
      unfold BufferPoolManager.DeletePage
      rw [hpt]
    rw [hrun]
    refine ⟨fun _ => ⟨rfl, rfl⟩, ?_, ?_⟩ <;> intro fit hfit <;> exact absurd hfit (by simp)
  | some fit0 =>
    by_cases hpc : 0 < (s.pages fit0).pin_count
    · have hrun : s.DeletePage page_id = some (false, s) := by
        unfold BufferPoolManager.DeletePage
        rw [hpt]
        simp [hpc]
      rw [hrun]
      refine ⟨fun hh => absurd hh (by simp), fun fit hfit hpos => ⟨rfl, rfl⟩, ?_⟩
      intro fit hfit hz
      injection hfit with h'
      subst h'
      omega
    · obtain ⟨hth, hafter⟩ := replacer_remove_ok s.replacer (fit0 : Int)
        (hrep fit0 hpt (by omega))
      cases hrm : s.replacer.Remove (fit0 : Int) with
      | mk thr rep =>
        rw [hrm] at hth hafter
        simp only [] at hth hafter
        subst hth
        have hrun : s.DeletePage page_id = some (true,
            { s with
              pages := fun j => if j = fit0 then
                  { page_id := -1, pin_count := (s.pages fit0).pin_count, is_dirty := false }
                else s.pages j,
              page_table := fun q => if q = page_id then none else s.page_table q,
              free_list := s.free_list ++ [fit0],
              replacer := rep,
              free_ids := s.free_ids ++ [page_id] }) := by
          unfold BufferPoolManager.DeletePage
          rw [hpt]
          simp only [if_neg hpc]
          rw [hrm]
        rw [hrun]
        refine ⟨fun hh => absurd hh (by simp), ?_, ?_⟩
        · intro fit hfit hpos
          injection hfit with h'
          subst h'
          omega
        · intro fit hfit hz
          injection hfit with h'
          subst h'
          refine ⟨rfl, by simp, by simp, by simp [hz], by simp, fun q hq => by simp [hq],
            rfl, hafter, rfl⟩

/-- Concrete frames and replacer for the buffer-pool witnesses. -/
def bpmPageA : Page := { page_id := 7, pin_count := 1, is_dirty := false }

def bpmPageFree : Page := { page_id := -1, pin_count := 0, is_dirty := false }

def bpmRep : LRUKReplacer :=
  { node_store := [(0, { history := [1], is_evictable := false })], current_timestamp := 1,
    curr_size := 0, replacer_size := 2, k := 2 }

/-- Pool of two frames with page 7 resident in frame 0 at pin count 1. -/
def bpmEx : BufferPoolManager :=
  { pool_size := 2,
    pages := fun j => if j = 0 then bpmPageA else bpmPageFree,
    page_table := fun q => if q = 7 then some 0 else none,
    free_list := [1], replacer := bpmRep, next_page_id := 8, free_ids := [] }

/-- C8 witness: unpinning page 7 of the concrete pool. -/
theorem c8_unpinpage_spec_witness :
    match bpmEx.UnpinPage 7 true with
    | none => False
    | some (b, s') =>
      ((b = false) ↔ bpmEx.page_table 7 = none ∨
          ∃ fit, bpmEx.page_table 7 = some fit ∧ (bpmEx.pages fit).pin_count = 0) ∧
      (b = false → s' = bpmEx) ∧
      (∀ fit, bpmEx.page_table 7 = some fit → 0 < (bpmEx.pages fit).pin_count →
        b = true ∧
        (s'.pages fit).pin_count = (bpmEx.pages fit).pin_count - 1 ∧
        (s'.pages fit).is_dirty = ((bpmEx.pages fit).is_dirty || true) ∧
        (s'.pages fit).page_id = (bpmEx.pages fit).page_id ∧
        (∀ j, j ≠ fit → s'.pages j = bpmEx.pages j) ∧
        s'.page_table = bpmEx.page_table ∧ s'.free_list = bpmEx.free_list ∧
        s'.free_ids = bpmEx.free_ids ∧
        ((bpmEx.pages fit).pin_count = 1 → nodeEvictable s'.replacer (fit : Int) = some true) ∧
        (1 < (bpmEx.pages fit).pin_count → s'.replacer = bpmEx.replacer)) :=
  c8_unpinpage_spec bpmEx 7 true (by decide)

/-- Pool where page 7 sits unpinned in frame 0 and frame 0 is evictable. -/
def bpmEx2 : BufferPoolManager :=
  { pool_size := 2,
    pages := fun j => if j = 0 then { page_id := 7, pin_count := 0, is_dirty := true } else bpmPageFree,
    page_table := fun q => if q = 7 then some 0 else none,
    free_list := [1],
    replacer := { node_store := [(0, { history := [1], is_evictable := true })],
                  current_timestamp := 1, curr_size := 1, replacer_size := 2, k := 2 },
    next_page_id := 8, free_ids := [] }

/-- C9 witness: deleting page 7 of `bpmEx`, where it is pinned (the call
returns false and changes nothing), and of `bpmEx2`, where it is unpinned
(the page is deleted, the frame freed and the id recycled). -/
theorem c9_deletepage_spec_witness :
    (match bpmEx.DeletePage 7 with
    | none => False
    | some (b, s') =>
      (bpmEx.page_table 7 = none → b = true ∧ s' = bpmEx) ∧
      (∀ fit, bpmEx.page_table 7 = some fit → 0 < (bpmEx.pages fit).pin_count →
        b = false ∧ s' = bpmEx) ∧
      (∀ fit, bpmEx.page_table 7 = some fit → (bpmEx.pages fit).pin_count = 0 →
        b = true ∧
        (s'.pages fit).page_id = -1 ∧ (s'.pages fit).is_dirty = false ∧
        (s'.pages fit).pin_count = 0 ∧
        s'.page_table 7 = none ∧
        (∀ q, q ≠ (7 : Int) → s'.page_table q = bpmEx.page_table q) ∧
        s'.free_list = bpmEx.free_list ++ [fit] ∧
        storeFind s'.replacer.node_store (fit : Int) = none ∧
        s'.free_ids = bpmEx.free_ids ++ [(7 : Int)])) ∧
    (match bpmEx2.DeletePage 7 with
    | none => False
    | some (b, s') =>
      (bpmEx2.page_table 7 = none → b = true ∧ s' = bpmEx2) ∧
      (∀ fit, bpmEx2.page_table 7 = some fit → 0 < (bpmEx2.pages fit).pin_count →
        b = false ∧ s' = bpmEx2) ∧
      (∀ fit, bpmEx2.page_table 7 = some fit → (bpmEx2.pages fit).pin_count = 0 →
        b = true ∧
        (s'.pages fit).page_id = -1 ∧ (s'.pages fit).is_dirty = false ∧
        (s'.pages fit).pin_count = 0 ∧
        s'.page_table 7 = none ∧
        (∀ q, q ≠ (7 : Int) → s'.page_table q = bpmEx2.page_table q) ∧
        s'.free_list = bpmEx2.free_list ++ [fit] ∧
        storeFind s'.replacer.node_store (fit : Int) = none ∧
        s'.free_ids = bpmEx2.free_ids ++ [(7 : Int)])) :=
  ⟨c9_deletepage_spec bpmEx 7 (by
      intro fit hfit hz
      have h0 : fit = 0 := by
        simp [bpmEx] at hfit
        omega
      subst h0
      exact absurd hz (by decide)),
   c9_deletepage_spec bpmEx2 7 (by
      intro fit hfit hz
      have h0 : fit = 0 := by
        simp [bpmEx2] at hfit
        omega
      subst h0
      decide)⟩

/-- One scan step preserves the `Evict` candidate invariant. -/
theorem scanInv_step (k : Nat) (l : List (Int × LRUKNode)) (acc : Int × Nat × Bool)
    (p : Int × LRUKNode) (hp : p.2.GetKDistance k < 2147483647) (h : scanInv k l acc) :
    scanInv k (l ++ [p]) (evictStep k acc p) := by
  obtain ⟨f_id, dist, less_k⟩ := acc
  obtain ⟨u, v⟩ := p
  obtain ⟨h1, h2⟩ := h
  unfold scanInv
  try dsimp only at h1
  try dsimp only at h2
  try dsimp only at hp
  try dsimp only
  simp only [evictStep]
  try dsimp only
  by_cases hev : v.is_evictable = false
  · rw [if_pos hev]
    try dsimp only
    refine ⟨fun hlk => ?_, fun hlk => ?_⟩
    · obtain ⟨n, hn, hne, hnk, hnd, hall⟩ := h1 hlk
      refine ⟨n, List.mem_append_left _ hn, hne, hnk, hnd, ?_⟩
      intro q hq hqe hqk
      rcases List.mem_append.1 hq with hq | hq
      · exact hall q hq hqe hqk
      · simp only [List.mem_singleton] at hq
        subst hq
        rw [hev] at hqe
        exact Bool.noConfusion hqe
    · obtain ⟨hge, hdisj⟩ := h2 hlk
      refine ⟨?_, ?_⟩
      · intro q hq hqe
        rcases List.mem_append.1 hq with hq | hq
        · exact hge q hq hqe
        · simp only [List.mem_singleton] at hq
          subst hq
          rw [hev] at hqe
          exact Bool.noConfusion hqe
      · rcases hdisj with ⟨hf, hd, hnone⟩ | ⟨n, hn, hne, hnd, hlt, hall⟩
        · refine Or.inl ⟨hf, hd, ?_⟩
          intro q hq
          rcases List.mem_append.1 hq with hq | hq
          · exact hnone q hq
          · simp only [List.mem_singleton] at hq
            subst hq
            exact hev
        · refine Or.inr ⟨n, List.mem_append_left _ hn, hne, hnd, hlt, ?_⟩
          intro q hq hqe
          rcases List.mem_append.1 hq with hq | hq
          · exact hall q hq hqe
          · simp only [List.mem_singleton] at hq
            subst hq
            rw [hev] at hqe
            exact Bool.noConfusion hqe
  · rw [if_neg hev]
    rw [Bool.not_eq_false] at hev
    by_cases hk : v.GetK < k
    · rw [if_pos hk]
      by_cases hlk : less_k = false
      · rw [if_pos hlk]
        try dsimp only
        refine ⟨fun _ => ?_, fun hc => Bool.noConfusion hc⟩
        refine ⟨v, List.mem_append_right _ (List.mem_singleton.2 rfl), hev, hk, rfl, ?_⟩
        intro q hq hqe hqk
        rcases List.mem_append.1 hq with hq | hq
        · obtain ⟨hge, _⟩ := h2 hlk
          exact absurd hqk (by have := hge q hq hqe; omega)
        · simp only [List.mem_singleton] at hq
          subst hq
          exact le_refl _
      · rw [if_neg hlk]
        rw [Bool.not_eq_false] at hlk
        obtain ⟨n, hn, hne, hnk, hnd, hall⟩ := h1 hlk
        by_cases hcmp : v.GetKDistance k < dist
        · rw [if_pos hcmp]
          try dsimp only
          refine ⟨fun _ => ?_, fun hc => Bool.noConfusion hc⟩
          refine ⟨v, List.mem_append_right _ (List.mem_singleton.2 rfl), hev, hk, rfl, ?_⟩
          intro q hq hqe hqk
          rcases List.mem_append.1 hq with hq | hq
          · have := hall q hq hqe hqk
            try dsimp only at *
            omega
          · simp only [List.mem_singleton] at hq
            subst hq
            exact le_refl _
        · rw [if_neg hcmp]
          try dsimp only
          refine ⟨fun _ => ?_, fun hc => by rw [hlk] at hc; exact Bool.noConfusion hc⟩
          refine ⟨n, List.mem_append_left _ hn, hne, hnk, hnd, ?_⟩
          intro q hq hqe hqk
          rcases List.mem_append.1 hq with hq | hq
          · exact hall q hq hqe hqk
          · simp only [List.mem_singleton] at hq
            subst hq
            try dsimp only at *
            omega
    · rw [if_neg hk]
      by_cases hboth : less_k = false ∧ v.GetKDistance k < dist
      · rw [if_pos hboth]
        obtain ⟨hlk, hcmp⟩ := hboth
        subst hlk
        try dsimp only
        refine ⟨fun hc => Bool.noConfusion hc, fun _ => ?_⟩
        obtain ⟨hge, hdisj⟩ := h2 rfl
        refine ⟨?_, ?_⟩
        · intro q hq hqe
          rcases List.mem_append.1 hq with hq | hq
          · exact hge q hq hqe
          · simp only [List.mem_singleton] at hq
            subst hq
            try dsimp only at *
            omega
        · refine Or.inr ⟨v, List.mem_append_right _ (List.mem_singleton.2 rfl), hev, rfl, hp, ?_⟩
          intro q hq hqe
          rcases List.mem_append.1 hq with hq | hq
          · rcases hdisj with ⟨_, _, hnone⟩ | ⟨n, _, _, hnd, _, hall⟩
            · rw [hnone q hq] at hqe
              exact Bool.noConfusion hqe
            · have := hall q hq hqe
              try dsimp only at *
              omega
          · simp only [List.mem_singleton] at hq
            subst hq
            exact le_refl _
      · rw [if_neg hboth]
        try dsimp only
        refine ⟨fun hlk => ?_, fun hlk => ?_⟩
        · obtain ⟨n, hn, hne, hnk, hnd, hall⟩ := h1 hlk
          refine ⟨n, List.mem_append_left _ hn, hne, hnk, hnd, ?_⟩
          intro q hq hqe hqk
          rcases List.mem_append.1 hq with hq | hq
          · exact hall q hq hqe hqk
          · simp only [List.mem_singleton] at hq
            subst hq
            try dsimp only at *
            omega
        · obtain ⟨hge, hdisj⟩ := h2 hlk
          rw [hlk] at hboth
          have hcmp : ¬v.GetKDistance k < dist := fun hc => hboth ⟨rfl, hc⟩
          refine ⟨?_, ?_⟩
          · intro q hq hqe
            rcases List.mem_append.1 hq with hq | hq
            · exact hge q hq hqe
            · simp only [List.mem_singleton] at hq
              subst hq
              try dsimp only at *
              omega
          · rcases hdisj with ⟨hf, hd, hnone⟩ | ⟨n, hn, hne, hnd, hlt, hall⟩
            · exact absurd hp (by rw [hd] at hcmp; omega)
            · refine Or.inr ⟨n, List.mem_append_left _ hn, hne, hnd, hlt, ?_⟩
              intro q hq hqe
              rcases List.mem_append.1 hq with hq | hq
              · exact hall q hq hqe
              · simp only [List.mem_singleton] at hq
                subst hq
                try dsimp only at *
                omega

/-- The full scan establishes the candidate invariant. -/
theorem scanInv_foldl (k : Nat) (l : List (Int × LRUKNode))
    (hts : ∀ p ∈ l, p.2.GetKDistance k < 2147483647) :
    scanInv k l (l.foldl (evictStep k) (-1, 2147483647, false)) := by
  induction l using List.reverseRecOn with
  | nil =>
    exact ⟨fun hc => Bool.noConfusion hc, fun _ => ⟨by simp, Or.inl ⟨rfl, rfl, by simp⟩⟩⟩
  | append_singleton l p ih =>
    rw [List.foldl_append]
    exact scanInv_step k l _ p (hts p (List.mem_append_right _ (List.mem_singleton.2 rfl)))
      (ih fun q hq => hts q (List.mem_append_left _ hq))

/-- C3: `Evict` returns nothing exactly when the number of evictable nodes is
zero, and otherwise returns an evictable frame that is optimal for the
k-distance policy — a fewer-than-k-accesses frame (infinite k-distance) with
the oldest first-access timestamp when one exists, else the frame whose K-th
most recent access timestamp is minimal, i.e. whose backward k-distance
`T - t_{m-k+1}` is maximal — removing the node and decrementing the evictable
count.  Hypotheses: `curr_size` agrees with the number of evictable nodes
(spec §3: "frame is evictable ⇔ counted in replacer.size()") and all
timestamps are below `INT32_MAX` (they count `RecordAccess` calls). -/
theorem c3_evict_policy (r : LRUKReplacer)
    (hsize : r.curr_size = r.evictables.length)
    (hts : ∀ p ∈ r.node_store, p.2.GetKDistance r.k < 2147483647) :
    (r.Evict.1 = false ↔ r.evictables.length = 0) ∧
    (r.Evict.1 = false → r.Evict.2.2 = r) ∧
    (r.Evict.1 = true →
      ∃ n, (r.Evict.2.1, n) ∈ r.node_store ∧ n.is_evictable = true ∧
        ((∃ q ∈ r.evictables, q.2.GetK < r.k) →
          n.GetK < r.k ∧
          ∀ q ∈ r.evictables, q.2.GetK < r.k →
            n.GetKDistance r.k ≤ q.2.GetKDistance r.k) ∧
        ((∀ q ∈ r.evictables, r.k ≤ q.2.GetK) →
          ∀ q ∈ r.evictables, n.GetKDistance r.k ≤ q.2.GetKDistance r.k) ∧
        r.Evict.2.2 =
          { r with
            node_store := storeErase r.node_store r.Evict.2.1,
            curr_size := r.curr_size - 1 }) := by
  by_cases hsz : r.curr_size = 0
  · have hev : r.Evict = (false, -1, r) := by
      unfold LRUKReplacer.Evict
      rw [if_pos hsz]
    rw [hev]
    refine ⟨⟨fun _ => by omega, fun _ => rfl⟩, fun _ => rfl, fun hc => Bool.noConfusion hc⟩
  · have hev : r.Evict = (true,
        (r.node_store.foldl (evictStep r.k) (-1, 2147483647, false)).1,
        { r with
          node_store := storeErase r.node_store
            (r.node_store.foldl (evictStep r.k) (-1, 2147483647, false)).1,
          curr_size := r.curr_size - 1 }) := by
      unfold LRUKReplacer.Evict
      rw [if_neg hsz]
    have hinv := scanInv_foldl r.k r.node_store hts
    obtain ⟨h1, h2⟩ := hinv
    rw [hev]
    refine ⟨⟨fun hc => Bool.noConfusion hc, fun hl => by omega⟩,
      fun hc => Bool.noConfusion hc, fun _ => ?_⟩
    cases hlk : (r.node_store.foldl (evictStep r.k) (-1, 2147483647, false)).2.2 with
    | true =>
      obtain ⟨n, hn, hne, hnk, hnd, hall⟩ := h1 hlk
      refine ⟨n, hn, hne, fun _ => ⟨hnk, ?_⟩, fun hge => ?_, rfl⟩
      · intro q hq hqk
        have hq' := List.mem_filter.1 hq
        rw [← hnd]
        exact hall q hq'.1 hq'.2 hqk
      · have : r.k ≤ n.GetK := hge (_, n) (List.mem_filter.2 ⟨hn, hne⟩)
        omega
    | false =>
      obtain ⟨hge, hdisj⟩ := h2 hlk
      rcases hdisj with ⟨hf, hd, hnone⟩ | ⟨n, hn, hne, hnd, hlt, hall⟩
      · exfalso
        have : r.evictables.length = 0 := by
          have : r.evictables = [] := by
            unfold LRUKReplacer.evictables
            refine List.eq_nil_iff_forall_not_mem.2 ?_
            intro q hq
            have hq' := List.mem_filter.1 hq
            rw [hnone q hq'.1] at hq'
            exact Bool.noConfusion hq'.2
          rw [this]
          rfl
        omega
      · refine ⟨n, hn, hne, fun hex => ?_, fun _ => ?_, rfl⟩
        · exfalso
          obtain ⟨q, hq, hqk⟩ := hex
          have hq' := List.mem_filter.1 hq
          have := hge q hq'.1 hq'.2
          omega
        · intro q hq
          have hq' := List.mem_filter.1 hq
          rw [← hnd]
          exact hall q hq'.1 hq'.2

/-- C3 witness: spec §8 scenario 2 — frames 1, 2, 3 accessed at timestamps
1..5 (frame 3 once), all evictable; `Evict` picks an optimal victim (frame 3:
infinite k-distance, oldest first access) and removes it. -/
theorem c3_evict_policy_witness :
    (rScenario.Evict.1 = false ↔ rScenario.evictables.length = 0) ∧
    (rScenario.Evict.1 = false → rScenario.Evict.2.2 = rScenario) ∧
    (rScenario.Evict.1 = true →
      ∃ n, (rScenario.Evict.2.1, n) ∈ rScenario.node_store ∧ n.is_evictable = true ∧
        ((∃ q ∈ rScenario.evictables, q.2.GetK < rScenario.k) →
          n.GetK < rScenario.k ∧
          ∀ q ∈ rScenario.evictables, q.2.GetK < rScenario.k →
            n.GetKDistance rScenario.k ≤ q.2.GetKDistance rScenario.k) ∧
        ((∀ q ∈ rScenario.evictables, rScenario.k ≤ q.2.GetK) →
          ∀ q ∈ rScenario.evictables,
            n.GetKDistance rScenario.k ≤ q.2.GetKDistance rScenario.k) ∧
        rScenario.Evict.2.2 =
          { rScenario with
            node_store := storeErase rScenario.node_store rScenario.Evict.2.1,
            curr_size := rScenario.curr_size - 1 }) :=
  c3_evict_policy rScenario (by decide) (by decide)

/-- The concrete scenario indeed evicts frame 3. -/
theorem c3_evict_scenario_returns_3 :
    rScenario.Evict.1 = true ∧ rScenario.Evict.2.1 = 3 := by
  exact ⟨by decide, by decide⟩

/-- Reading a directory after writing a directory page. -/
theorem fetchDir_setPage_dir (s : DiskExtendibleHashTable) (pid : Int)
    (d : ExtendibleHTableDirectoryPage) (id : Int) :
    (s.setPage pid (.dir d)).fetchDir id = if id = pid then some d else s.fetchDir id := by
  unfold DiskExtendibleHashTable.setPage DiskExtendibleHashTable.fetchDir
  by_cases h : id = pid <;> simp [h]

/-- Reading a directory after writing a bucket page. -/
theorem fetchDir_setPage_bucket (s : DiskExtendibleHashTable) (pid : Int)
    (b : ExtendibleHTableBucketPage) (id : Int) :
    (s.setPage pid (.bucket b)).fetchDir id = if id = pid then none else s.fetchDir id := by
  unfold DiskExtendibleHashTable.setPage DiskExtendibleHashTable.fetchDir
  by_cases h : id = pid <;> simp [h]

/-- Reading a bucket after writing a bucket page. -/
theorem fetchBucket_setPage_bucket (s : DiskExtendibleHashTable) (pid : Int)
    (b : ExtendibleHTableBucketPage) (id : Int) :
    (s.setPage pid (.bucket b)).fetchBucket id = if id = pid then some b else s.fetchBucket id := by
  unfold DiskExtendibleHashTable.setPage DiskExtendibleHashTable.fetchBucket
  by_cases h : id = pid <;> simp [h]

/-- Reading a bucket after writing a directory page. -/
theorem fetchBucket_setPage_dir (s : DiskExtendibleHashTable) (pid : Int)
    (d : ExtendibleHTableDirectoryPage) (id : Int) :
    (s.setPage pid (.dir d)).fetchBucket id = if id = pid then none else s.fetchBucket id := by
  unfold DiskExtendibleHashTable.setPage DiskExtendibleHashTable.fetchBucket
  by_cases h : id = pid <;> simp [h]

/-- A page id cannot hold a directory and a bucket at once. -/
theorem fetchDir_ne_fetchBucket (s : DiskExtendibleHashTable) (i j : Int)
    (d : ExtendibleHTableDirectoryPage) (B : ExtendibleHTableBucketPage)
    (hd : s.fetchDir i = some d) (hb : s.fetchBucket j = some B) : i ≠ j := by
  intro hij
  subst hij
  unfold DiskExtendibleHashTable.fetchDir at hd
  unfold DiskExtendibleHashTable.fetchBucket at hb
  cases hpi : s.pages i with
  | none => rw [hpi] at hd; cases hd
  | some p =>
    cases p with
    | dir d' => rw [hpi] at hb; cases hb
    | bucket b' => rw [hpi] at hd; cases hd

/-- Fetched directory pages are below the allocation counter. -/
theorem FreshWF.fetchDir_lt (s : DiskExtendibleHashTable) (hw : FreshWF s) (id : Int)
    (d : ExtendibleHTableDirectoryPage) (hd : s.fetchDir id = some d) :
    id < s.next_page_id := by
  apply hw.fresh
  intro hnone
  unfold DiskExtendibleHashTable.fetchDir at hd
  rw [hnone] at hd
  cases hd

/-- Fetched bucket pages are below the allocation counter. -/
theorem FreshWF.fetchBucket_lt (s : DiskExtendibleHashTable) (hw : FreshWF s) (id : Int)
    (B : ExtendibleHTableBucketPage) (hb : s.fetchBucket id = some B) :
    id < s.next_page_id := by
  apply hw.fresh
  intro hnone
  unfold DiskExtendibleHashTable.fetchBucket at hb
  rw [hnone] at hb
  cases hb

/-- `AllocatePage` with no recycled ids. -/
theorem allocatePage_eq (s : DiskExtendibleHashTable) (h : s.recycled_ids = []) :
    s.AllocatePage = (s.next_page_id, { s with next_page_id := s.next_page_id + 1 }) := by
  unfold DiskExtendibleHashTable.AllocatePage
  rw [h]

/-- `setPage` preserves allocation well-formedness for already-allocated ids. -/
theorem FreshWF.setPage (s : DiskExtendibleHashTable) (hw : FreshWF s) (pid : Int)
    (hp : pid < s.next_page_id) (p : HPage) : FreshWF (s.setPage pid p) := by
  refine ⟨hw.recycled, hw.next_nonneg, ?_⟩
  intro id hid
  unfold DiskExtendibleHashTable.setPage at hid
  simp only [] at hid
  by_cases hidp : id = pid
  · subst hidp; exact hp
  · apply hw.fresh
    intro hnone
    simp [hidp, hnone] at hid

/-- A successful bucket insert appends the pair; the key was absent. -/
theorem bucket_insert_true (B : ExtendibleHTableBucketPage) (k v : Nat)
    (h : (B.Insert k v).1 = true) :
    (B.Insert k v).2 = { B with entries := B.entries ++ [(k, v)] } ∧ B.Lookup k = none := by
  unfold ExtendibleHTableBucketPage.Insert at h ⊢
  by_cases hf : B.IsFull
  · rw [if_pos hf] at h; cases h
  · rw [if_neg hf] at h ⊢
    by_cases hl : (B.Lookup k).isSome
    · rw [if_pos hl] at h; cases h
    · rw [if_neg hl]
      exact ⟨rfl, Option.not_isSome_iff_eq_none.1 hl⟩

/-- Looking up the freshly appended key. -/
theorem bucket_lookup_append (B : ExtendibleHTableBucketPage) (k v : Nat)
    (h : B.Lookup k = none) :
    ExtendibleHTableBucketPage.Lookup { B with entries := B.entries ++ [(k, v)] } k = some v := by
  unfold ExtendibleHTableBucketPage.Lookup at h ⊢
  have hfind : B.entries.find? (fun e => decide (e.1 = k)) = none := by
    cases hx : B.entries.find? (fun e => decide (e.1 = k)) with
    | none => rfl
    | some e => rw [hx] at h; cases h
  simp only [List.find?_append, hfind, Option.none_or, List.find?]
  simp

/-- Inserting a different key cannot make a key appear. -/
theorem bucket_insert_lookup_none (B : ExtendibleHTableBucketPage) (k v k' : Nat)
    (h : B.Lookup k' = none) (hne : k ≠ k') :
    (B.Insert k v).2.Lookup k' = none := by
  unfold ExtendibleHTableBucketPage.Insert
  by_cases hf : B.IsFull
  · rw [if_pos hf]; exact h
  · rw [if_neg hf]
    by_cases hl : (B.Lookup k).isSome
    · rw [if_pos hl]; exact h
    · rw [if_neg hl]
      unfold ExtendibleHTableBucketPage.Lookup at h ⊢
      have hfind : B.entries.find? (fun e => decide (e.1 = k')) = none := by
        cases hx : B.entries.find? (fun e => decide (e.1 = k')) with
        | none => rfl
        | some e => rw [hx] at h; cases h
      simp only [List.find?_append, hfind, Option.none_or, List.find?]
      simp [hne]

/-- Removing an entry cannot make a key appear. -/
theorem bucket_remove_lookup_none (B : ExtendibleHTableBucketPage) (k k' : Nat)
    (h : B.Lookup k' = none) :
    (B.Remove k).2.Lookup k' = none := by
  unfold ExtendibleHTableBucketPage.Remove
  by_cases hl : (B.Lookup k).isSome
  · rw [if_pos hl]
    unfold ExtendibleHTableBucketPage.Lookup at h ⊢
    have hfind : B.entries.find? (fun e => decide (e.1 = k')) = none := by
      cases hx : B.entries.find? (fun e => decide (e.1 = k')) with
      | none => rfl
      | some e => rw [hx] at h; cases h
    have hsub := List.eraseP_sublist (p := fun e => decide (e.1 = k)) B.entries
    have : (B.entries.eraseP (fun e => decide (e.1 = k))).find? (fun e => decide (e.1 = k')) = none := by
      rw [List.find?_eq_none] at hfind ⊢
      intro x hx
      exact hfind x (hsub.mem hx)
    simp [this]
  · rw [if_neg hl]; exact h

/-- Redistribution never introduces a key that was in neither bucket. -/
theorem redistribute_lookup_none (hash : Nat → Nat) (d : ExtendibleHTableDirectoryPage)
    (sid bp : Int) (k : Nat) :
    ∀ (l : List (Nat × Nat)) (sb b sb' b' : ExtendibleHTableBucketPage),
      DiskExtendibleHashTable.redistribute hash d sid bp l sb b = some (sb', b') →
      sb.Lookup k = none → b.Lookup k = none → (∀ e ∈ l, e.1 ≠ k) →
      sb'.Lookup k = none ∧ b'.Lookup k = none
  | [], sb, b, sb', b', hred, hsb, hb, _ => by
    unfold DiskExtendibleHashTable.redistribute at hred
    simp only [Option.some.injEq, Prod.mk.injEq] at hred
    obtain ⟨h1, h2⟩ := hred
    subst h1; subst h2
    exact ⟨hsb, hb⟩
  | e :: rest, sb, b, sb', b', hred, hsb, hb, hkeys => by
    unfold DiskExtendibleHashTable.redistribute at hred
    have hek : e.1 ≠ k := hkeys e (List.mem_cons_self e rest)
    have hkeys' : ∀ e' ∈ rest, e'.1 ≠ k := fun e' he' => hkeys e' (List.mem_cons_of_mem e he')
    try dsimp only at hred
    split at hred
    · exact redistribute_lookup_none hash d sid bp k rest _ _ sb' b' hred
        (bucket_insert_lookup_none sb e.1 e.2 k hsb hek)
        (bucket_remove_lookup_none b e.1 k hb) hkeys'
    · split at hred
      · exact redistribute_lookup_none hash d sid bp k rest _ _ sb' b' hred hsb hb hkeys'
      · cases hred

/-- Slot read-off after `SetBucketPageId`. -/
theorem dir_setBp_get (d : ExtendibleHTableDirectoryPage) (i : Nat) (pid : Int) (j : Nat) :
    (d.SetBucketPageId i pid).GetBucketPageId j =
      if j = i then pid else d.GetBucketPageId j := by
  unfold ExtendibleHTableDirectoryPage.SetBucketPageId ExtendibleHTableDirectoryPage.GetBucketPageId
  by_cases h : j = i <;> simp [h]

/-- `SetBucketPageId` keeps the depths. -/
theorem dir_setBp_gd (d : ExtendibleHTableDirectoryPage) (i : Nat) (pid : Int) :
    (d.SetBucketPageId i pid).global_depth = d.global_depth := rfl

theorem dir_setBp_ld (d : ExtendibleHTableDirectoryPage) (i : Nat) (pid : Int) (j : Nat) :
    (d.SetBucketPageId i pid).local_depths j = d.local_depths j := rfl

theorem dir_setBp_maxd (d : ExtendibleHTableDirectoryPage) (i : Nat) (pid : Int) :
    (d.SetBucketPageId i pid).max_depth = d.max_depth := rfl

/-- Depth read-off after `IncrLocalDepth`. -/
theorem dir_incrLd_ld (d : ExtendibleHTableDirectoryPage) (i j : Nat) :
    (d.IncrLocalDepth i).local_depths j =
      if j = i then d.local_depths i + 1 else d.local_depths j := by
  unfold ExtendibleHTableDirectoryPage.IncrLocalDepth
  by_cases h : j = i <;> simp [h]

theorem dir_incrLd_gd (d : ExtendibleHTableDirectoryPage) (i : Nat) :
    (d.IncrLocalDepth i).global_depth = d.global_depth := rfl

theorem dir_incrLd_bp (d : ExtendibleHTableDirectoryPage) (i j : Nat) :
    (d.IncrLocalDepth i).bucket_page_ids j = d.bucket_page_ids j := rfl

theorem dir_incrLd_maxd (d : ExtendibleHTableDirectoryPage) (i : Nat) :
    (d.IncrLocalDepth i).max_depth = d.max_depth := rfl

/-- A key absent from a bucket is absent from each of its entries. -/
theorem bucket_lookup_none_keys (B : ExtendibleHTableBucketPage) (k : Nat)
    (h : B.Lookup k = none) : ∀ e ∈ B.entries, e.1 ≠ k := by
  unfold ExtendibleHTableBucketPage.Lookup at h
  have hfind : B.entries.find? (fun e => decide (e.1 = k)) = none := by
    cases hx : B.entries.find? (fun e => decide (e.1 = k)) with
    | none => rfl
    | some e => rw [hx] at h; cases h
  rw [List.find?_eq_none] at hfind
  intro e he
  have := hfind e he
  simpa using this

/-- `GetValue` succeeds and returns exactly the routed value. -/
theorem getValue_of_routes (s : DiskExtendibleHashTable) (hash : Nat → Nat) (k v : Nat)
    (result : List Nat) (h : RoutesTo hash s k v) :
    s.GetValue hash k result = some (true, result ++ [v]) := by
  obtain ⟨dp, d, bp, B, h1, h2, h3, h4, h5, h6, h7⟩ := h
  unfold DiskExtendibleHashTable.GetValue
  try dsimp only
  rw [h1, if_neg h2, h3]
  try dsimp only
  rw [h4, if_neg h5, h6]
  try dsimp only
  rw [h7]

/-- A successful `InsertToNewBucket` leaves the directory slot pointing at the
fresh bucket that holds exactly the new pair. -/
theorem insertToNewBucket_route (s : DiskExtendibleHashTable) (dirId : Int)
    (d : ExtendibleHTableDirectoryPage) (bIdx k v : Nat)
    (hw : FreshWF s) (hdlt : dirId < s.next_page_id)
    (hr : (s.InsertToNewBucket dirId d bIdx k v).1 = true) :
    (s.InsertToNewBucket dirId d bIdx k v).2.header_max_depth = s.header_max_depth ∧
    (s.InsertToNewBucket dirId d bIdx k v).2.header_dir_ids = s.header_dir_ids ∧
    (s.InsertToNewBucket dirId d bIdx k v).2.fetchDir dirId =
      some (d.SetBucketPageId bIdx s.next_page_id) ∧
    (s.InsertToNewBucket dirId d bIdx k v).2.fetchBucket s.next_page_id =
      some { max_size := s.bucket_max_size,
             entries := [] ++ [(k, v)] } ∧
    s.next_page_id ≠ -1 := by
  have hnn := hw.next_nonneg
  have hne : s.next_page_id ≠ dirId := by omega
  unfold DiskExtendibleHashTable.InsertToNewBucket at hr ⊢
  rw [allocatePage_eq s hw.recycled] at hr ⊢
  try dsimp only at hr ⊢
  obtain ⟨hins, _⟩ := bucket_insert_true _ k v hr
  refine ⟨rfl, rfl, ?_, ?_, by omega⟩
  · rw [fetchDir_setPage_dir]
    rw [if_pos rfl]
  · rw [fetchBucket_setPage_dir]
    rw [if_neg hne, fetchBucket_setPage_bucket, if_pos rfl, hins]

/-- When the split body ends with a successful insert (`done`), the final
state routes the key to the bucket that received it. -/
theorem splitCore_done_route (hash : Nat → Nat) (s : DiskExtendibleHashTable)
    (dirId : Int) (d1 : ExtendibleHTableDirectoryPage) (bIdx : Nat) (bId : Int)
    (B : ExtendibleHTableBucketPage) (k v : Nat) (s1 : DiskExtendibleHashTable)
    (hw : FreshWF s)
    (hhid : s.header_dir_ids (s.HashToDirectoryIndex (hash k)) = dirId)
    (hdid : dirId ≠ -1)
    (hdlt : dirId < s.next_page_id)
    (hdb : dirId ≠ bId)
    (hB : s.fetchBucket bId = some B)
    (hnk : B.Lookup k = none)
    (hbid : bId ≠ -1)
    (hsi : s.splitCore hash dirId d1 bIdx bId B k v = .done s1) :
    RoutesTo hash s1 k v := by
  have hnn := hw.next_nonneg
  have hblt : bId < s.next_page_id := FreshWF.fetchBucket_lt s hw bId B hB
  have hsbinit : ExtendibleHTableBucketPage.Lookup
      { max_size := s.bucket_max_size, entries := [] } k = none := rfl
  have hkeys := bucket_lookup_none_keys B k hnk
  unfold DiskExtendibleHashTable.splitCore at hsi
  rw [allocatePage_eq s hw.recycled] at hsi
  try dsimp only at hsi
  split at hsi
  · cases hsi
  · split at hsi
    next => cases hsi
    next red hred =>
      obtain ⟨hs1, hs2⟩ := redistribute_lookup_none hash _ s.next_page_id bId k
        B.entries _ B red.1 red.2 (by rw [← hred]) hsbinit hnk hkeys
      split at hsi
      next hip =>
        split at hsi
        next hins =>
          injection hsi with hsi'
          subst hsi'
          obtain ⟨hinsEq, hnone⟩ := bucket_insert_true red.1 k v hins
          refine ⟨dirId, _, s.next_page_id, (red.1.Insert k v).2, hhid, hdid, ?_, hip,
            by omega, ?_, ?_⟩
          · rw [fetchDir_setPage_bucket, if_neg (by omega), fetchDir_setPage_bucket,
              if_neg hdb, fetchDir_setPage_dir, if_pos rfl]
          · rw [fetchBucket_setPage_bucket, if_pos rfl]
          · rw [hinsEq]
            exact bucket_lookup_append red.1 k v hnone
        next => cases hsi
      next hip =>
        split at hsi
        next hbp =>
          split at hsi
          next hins =>
            injection hsi with hsi'
            subst hsi'
            obtain ⟨hinsEq, hnone⟩ := bucket_insert_true red.2 k v hins
            refine ⟨dirId, _, bId, (red.2.Insert k v).2, hhid, hdid, ?_, hbp, hbid, ?_, ?_⟩
            · rw [fetchDir_setPage_bucket, if_neg (by omega), fetchDir_setPage_bucket,
                if_neg hdb, fetchDir_setPage_dir, if_pos rfl]
            · rw [fetchBucket_setPage_bucket, if_neg (by omega),
                fetchBucket_setPage_bucket, if_pos rfl]
            · rw [hinsEq]
              exact bucket_lookup_append red.2 k v hnone
          next => cases hsi
        next => cases hsi

/-- When the overflow round ends with a successful insert (`done`), the final
state routes the key to the bucket that received it. -/
theorem splitInsert_done_route (hash : Nat → Nat) (s : DiskExtendibleHashTable)
    (dirId : Int) (d : ExtendibleHTableDirectoryPage) (bIdx : Nat) (bId : Int)
    (B : ExtendibleHTableBucketPage) (k v : Nat) (s1 : DiskExtendibleHashTable)
    (hw : FreshWF s)
    (hhid : s.header_dir_ids (s.HashToDirectoryIndex (hash k)) = dirId)
    (hdid : dirId ≠ -1)
    (hd : s.fetchDir dirId = some d)
    (hB : s.fetchBucket bId = some B)
    (hnk : B.Lookup k = none)
    (hbid : bId ≠ -1)
    (hsi : s.splitInsert hash dirId d bIdx bId B k v = .done s1) :
    RoutesTo hash s1 k v := by
  have hdlt : dirId < s.next_page_id := FreshWF.fetchDir_lt s hw dirId d hd
  have hdb : dirId ≠ bId := fetchDir_ne_fetchBucket s dirId bId d B hd hB
  unfold DiskExtendibleHashTable.splitInsert at hsi
  try dsimp only at hsi
  split at hsi <;> try split at hsi
  all_goals first
    | cases hsi
    | exact splitCore_done_route hash s dirId _ bIdx bId B k v s1 hw hhid hdid hdlt hdb hB hnk
        hbid hsi

/-- A successful `InsertToNewDirectory` routes the key to the fresh bucket of
the fresh directory. -/
theorem insertToNewDirectory_route (hash : Nat → Nat) (s : DiskExtendibleHashTable) (k v : Nat)
    (hw : FreshWF s)
    (hr : (s.InsertToNewDirectory (s.HashToDirectoryIndex (hash k)) (hash k) k v).1 = true) :
    RoutesTo hash (s.InsertToNewDirectory (s.HashToDirectoryIndex (hash k)) (hash k) k v).2 k v := by
  have hnn := hw.next_nonneg
  unfold DiskExtendibleHashTable.InsertToNewDirectory at hr ⊢
  rw [allocatePage_eq s hw.recycled] at hr ⊢
  try dsimp only at hr ⊢
  set s3 := DiskExtendibleHashTable.setPage
      { header_max_depth := s.header_max_depth, directory_max_depth := s.directory_max_depth,
        bucket_max_size := s.bucket_max_size,
        header_dir_ids := fun j =>
          if j = s.HashToDirectoryIndex (hash k) then s.next_page_id else s.header_dir_ids j,
        pages := s.pages, next_page_id := s.next_page_id + 1, recycled_ids := s.recycled_ids }
      s.next_page_id
      (HPage.dir (ExtendibleHTableDirectoryPage.Init s.directory_max_depth)) with hs3
  have hh3 : s3.header_dir_ids = fun j =>
      if j = s.HashToDirectoryIndex (hash k) then s.next_page_id else s.header_dir_ids j := by
    rw [hs3]
    rfl
  have hm3 : s3.header_max_depth = s.header_max_depth := by rw [hs3]; rfl
  have hn3 : s3.next_page_id = s.next_page_id + 1 := by rw [hs3]; rfl
  have hw3 : FreshWF s3 := by
    rw [hs3]
    refine ⟨hw.recycled, ?_, ?_⟩
    · show (0 : Int) ≤ s.next_page_id + 1
      omega
    · intro id hid
      show id < s.next_page_id + 1
      by_cases hidn : id = s.next_page_id
      · omega
      · have hpg : s.pages id ≠ none := by
          intro hx
          apply hid
          show (if id = s.next_page_id then some _ else s.pages id) = none
          rw [if_neg hidn, hx]
        have := hw.fresh id hpg
        omega
  obtain ⟨hmax, hhdr, hdir, hbkt, hne2⟩ := insertToNewBucket_route s3 s.next_page_id
    (ExtendibleHTableDirectoryPage.Init s.directory_max_depth)
    ((ExtendibleHTableDirectoryPage.Init s.directory_max_depth).HashToBucketIndex (hash k))
    k v hw3 (by rw [hn3]; omega) hr
  rw [hn3] at hbkt
  refine ⟨s.next_page_id, _, s.next_page_id + 1, _, ?_, by omega, hdir, ?_, by omega, hbkt, ?_⟩
  · rw [hhdr, hh3]
    have hidx : DiskExtendibleHashTable.HashToDirectoryIndex
        ((s3.InsertToNewBucket s.next_page_id (ExtendibleHTableDirectoryPage.Init s.directory_max_depth)
          ((ExtendibleHTableDirectoryPage.Init s.directory_max_depth).HashToBucketIndex (hash k)) k v).2)
        (hash k) = s.HashToDirectoryIndex (hash k) := by
      unfold DiskExtendibleHashTable.HashToDirectoryIndex
      rw [hmax, hm3]
    try dsimp only
    rw [hidx, if_pos rfl]
  · rw [dir_setBp_get, if_pos (by rfl), hn3]
  · exact bucket_lookup_append { max_size := _, entries := [] } k v rfl

/-- The split body preserves allocation well-formedness when it recurses. -/
theorem splitCore_again_fresh (hash : Nat → Nat) (s : DiskExtendibleHashTable)
    (dirId : Int) (d1 : ExtendibleHTableDirectoryPage) (bIdx : Nat) (bId : Int)
    (B : ExtendibleHTableBucketPage) (k v : Nat) (s1 : DiskExtendibleHashTable)
    (hw : FreshWF s) (hdlt : dirId < s.next_page_id) (hblt : bId < s.next_page_id)
    (hsi : s.splitCore hash dirId d1 bIdx bId B k v = .again s1) :
    FreshWF s1 := by
  have hnn := hw.next_nonneg
  have hwa : FreshWF { s with next_page_id := s.next_page_id + 1 } := by
    refine ⟨hw.recycled, by show (0 : Int) ≤ s.next_page_id + 1; omega, ?_⟩
    intro id hid
    show id < s.next_page_id + 1
    have := hw.fresh id hid
    omega
  unfold DiskExtendibleHashTable.splitCore at hsi
  rw [allocatePage_eq s hw.recycled] at hsi
  try dsimp only at hsi
  split at hsi
  · cases hsi
  · split at hsi
    next => cases hsi
    next red hred =>
      split at hsi
      next hip =>
        split at hsi
        next => cases hsi
        next hins =>
          injection hsi with hsi'
          subst hsi'
          exact FreshWF.setPage _ (FreshWF.setPage _ (FreshWF.setPage _ hwa dirId
              (show dirId < s.next_page_id + 1 by omega) _) bId
              (show bId < s.next_page_id + 1 by omega) _) s.next_page_id
              (show s.next_page_id < s.next_page_id + 1 by omega) _
      next hip =>
        split at hsi
        next hbp =>
          split at hsi
          next => cases hsi
          next hins =>
            injection hsi with hsi'
            subst hsi'
            exact FreshWF.setPage _ (FreshWF.setPage _ (FreshWF.setPage _ hwa dirId
                (show dirId < s.next_page_id + 1 by omega) _) bId
                (show bId < s.next_page_id + 1 by omega) _) s.next_page_id
                (show s.next_page_id < s.next_page_id + 1 by omega) _
        next => cases hsi

/-- The overflow round preserves allocation well-formedness when it recurses. -/
theorem splitInsert_again_fresh (hash : Nat → Nat) (s : DiskExtendibleHashTable)
    (dirId : Int) (d : ExtendibleHTableDirectoryPage) (bIdx : Nat) (bId : Int)
    (B : ExtendibleHTableBucketPage) (k v : Nat) (s1 : DiskExtendibleHashTable)
    (hw : FreshWF s) (hd : s.fetchDir dirId = some d) (hB : s.fetchBucket bId = some B)
    (hsi : s.splitInsert hash dirId d bIdx bId B k v = .again s1) :
    FreshWF s1 := by
  have hdlt : dirId < s.next_page_id := FreshWF.fetchDir_lt s hw dirId d hd
  have hblt : bId < s.next_page_id := FreshWF.fetchBucket_lt s hw bId B hB
  unfold DiskExtendibleHashTable.splitInsert at hsi
  try dsimp only at hsi
  split at hsi <;> try split at hsi
  all_goals first
    | cases hsi
    | exact splitCore_again_fresh hash s dirId _ bIdx bId B k v s1 hw hdlt hblt hsi

/-- Any `Insert` run that returns true leaves the table routing the key to a
bucket that holds exactly its value. -/
theorem insert_ok_route (hash : Nat → Nat) (k v : Nat) :
    ∀ (fuel : Nat) (s s' : DiskExtendibleHashTable), FreshWF s →
      DiskExtendibleHashTable.insertGo hash fuel s k v = .ok true s' →
      RoutesTo hash s' k v := by
  intro fuel
  induction fuel with
  | zero =>
    intro s s' _ h
    cases h
  | succ fuel ih =>
    intro s s' hw h
    have hnn := hw.next_nonneg
    unfold DiskExtendibleHashTable.insertGo at h
    try dsimp only at h
    split at h
    next hdp =>
      injection h with hb hs
      subst hs
      exact insertToNewDirectory_route hash s k v hw hb
    next hdp =>
      split at h
      next => cases h
      next d hd =>
        split at h
        next hbp =>
          injection h with hb hs
          subst hs
          obtain ⟨hmax, hhdr, hdir, hbkt, hne2⟩ := insertToNewBucket_route s _ d
            (d.HashToBucketIndex (hash k)) k v hw
            (FreshWF.fetchDir_lt s hw _ d hd) hb
          refine ⟨_, _, s.next_page_id, _, ?_, hdp, hdir, ?_, by omega, hbkt, ?_⟩
          · rw [hhdr]
            have hidx : (s.InsertToNewBucket (s.header_dir_ids (s.HashToDirectoryIndex (hash k)))
                d (d.HashToBucketIndex (hash k)) k v).2.HashToDirectoryIndex (hash k) =
                s.HashToDirectoryIndex (hash k) := by
              show hash k >>> (32 - (s.InsertToNewBucket (s.header_dir_ids
                  (s.HashToDirectoryIndex (hash k))) d (d.HashToBucketIndex (hash k)) k
                  v).2.header_max_depth) = s.HashToDirectoryIndex (hash k)
              rw [hmax]
              rfl
            rw [hidx]
          · have hcond : (ExtendibleHTableDirectoryPage.SetBucketPageId d
                (d.HashToBucketIndex (hash k)) s.next_page_id).HashToBucketIndex (hash k) =
                d.HashToBucketIndex (hash k) := rfl
            rw [dir_setBp_get, if_pos hcond]
          · exact bucket_lookup_append { max_size := _, entries := [] } k v rfl
        next hbp =>
          split at h
          next => cases h
          next B hB =>
            split at h
            next hins =>
              injection h with hb hs
              subst hs
              obtain ⟨hinsEq, hnone⟩ := bucket_insert_true B k v hins
              have hdb := fetchDir_ne_fetchBucket s _ _ d B hd hB
              refine ⟨s.header_dir_ids (s.HashToDirectoryIndex (hash k)), d,
                d.GetBucketPageId (d.HashToBucketIndex (hash k)), (B.Insert k v).2,
                rfl, hdp, ?_, rfl, hbp, ?_, ?_⟩
              · rw [fetchDir_setPage_bucket, if_neg hdb]
                exact hd
              · rw [fetchBucket_setPage_bucket, if_pos rfl]
              · rw [hinsEq]
                exact bucket_lookup_append B k v hnone
            next hins =>
              split at h
              next =>
                injection h with hb
                cases hb
              next hlk =>
                split at h
                next => cases h
                next hfull =>
                  split at h
                  next => cases h
                  next s1 hsi =>
                    injection h with hb
                    cases hb
                  next s1 hsi =>
                    injection h with hb hs
                    exact hs ▸ splitInsert_done_route hash s _ d _ _ B k v s1 hw rfl hdp hd hB
                      (Option.not_isSome_iff_eq_none.1 hlk) hbp hsi
                  next s1 hsi =>
                    exact ih s1 s' (splitInsert_again_fresh hash s _ d _ _ B k v s1 hw hd hB hsi) h

/-- A fresh table is allocation well-formed. -/
theorem newTable_fresh (hmax dmax bmax : Nat) : FreshWF (newTable hmax dmax bmax) :=
  ⟨rfl, by show (0 : Int) ≤ 1; decide, fun _ hid => absurd rfl hid⟩

/-- C6: if `Insert(k, v)` returns true, an immediately following
`GetValue(k)` (no intervening operations) returns true and appends exactly
`v`.  The hypothesis is the allocation invariant of reachable states
(`FreshWF`): fresh page ids never collide with live pages. -/
theorem c6_insert_then_get (s : DiskExtendibleHashTable) (hash : Nat → Nat) (k v : Nat)
    (s' : DiskExtendibleHashTable) (result : List Nat) (hw : FreshWF s)
    (h : s.Insert hash k v = .ok true s') :
    s'.GetValue hash k result = some (true, result ++ [v]) :=
  getValue_of_routes s' hash k v result
    (insert_ok_route hash k v (s.directory_max_depth + 2) s s' hw h)

/-- Table for the C6/C7 witnesses: `header_max_depth = 1`,
`directory_max_depth = 2`, `bucket_max_size = 2`. -/
def c6Table : DiskExtendibleHashTable := newTable 1 2 2

/-- The witness table after `Insert(5, 7)`. -/
def c6Table1 : DiskExtendibleHashTable := insStep idHash c6Table 5 7

/-- C6 witness: inserting `(5, 7)` into the fresh table and reading key 5. -/
theorem c6_insert_then_get_witness :
    c6Table1.GetValue idHash 5 [] = some (true, [7]) :=
  c6_insert_then_get c6Table idHash 5 7 c6Table1 [] (newTable_fresh 1 2 2) rfl

/-- C7: after a successful `Insert(k, v₁)`, a second `Insert(k, v₂)` returns
false and leaves the table unchanged, and `GetValue(k)` still yields `v₁`. -/
theorem c7_duplicate_insert (s : DiskExtendibleHashTable) (hash : Nat → Nat) (k v1 v2 : Nat)
    (s1 : DiskExtendibleHashTable) (hw : FreshWF s)
    (h : s.Insert hash k v1 = .ok true s1) :
    s1.Insert hash k v2 = .ok false s1 ∧
      s1.GetValue hash k [] = some (true, [v1]) := by
  have hroute := insert_ok_route hash k v1 (s.directory_max_depth + 2) s s1 hw h
  obtain ⟨dp, d, bp, B, h1, h2, h3, h4, h5, h6, h7⟩ := hroute
  constructor
  · show DiskExtendibleHashTable.insertGo hash (s1.directory_max_depth + 1 + 1) s1 k v2 =
      .ok false s1
    unfold DiskExtendibleHashTable.insertGo
    try dsimp only
    rw [h1, if_neg h2, h3]
    try dsimp only
    rw [h4, if_neg h5, h6]
    try dsimp only
    have hfalse : (B.Insert k v2).1 = false := by
      unfold ExtendibleHTableBucketPage.Insert
      by_cases hf : B.IsFull = true
      · rw [if_pos hf]
      · rw [if_neg hf, if_pos (by rw [h7]; rfl)]
    have hcond : ¬((B.Insert k v2).1 = true) := by
      rw [hfalse]
      exact fun hc => Bool.noConfusion hc
    rw [if_neg hcond]
    have hsome : (B.Lookup k).isSome = true := by rw [h7]; rfl
    rw [if_pos hsome]
  · exact getValue_of_routes s1 hash k v1 [] ⟨dp, d, bp, B, h1, h2, h3, h4, h5, h6, h7⟩

/-- C7 witness: inserting `(5, 9)` after `(5, 7)` fails, changes nothing, and
key 5 still reads 7. -/
theorem c7_duplicate_insert_witness :
    c6Table1.Insert idHash 5 9 = .ok false c6Table1 ∧
      c6Table1.GetValue idHash 5 [] = some (true, [7]) :=
  c7_duplicate_insert c6Table idHash 5 7 9 c6Table1 (newTable_fresh 1 2 2) rfl

/-! ## C4: termination of `Insert` -/

/-- XOR with a power of two always changes the number. -/
theorem xor_two_pow_ne (i n : Nat) : i ^^^ 2 ^ n ≠ i := by
  intro h
  have h1 : (i ^^^ 2 ^ n).testBit n = i.testBit n := by rw [h]
  rw [Nat.testBit_xor, Nat.testBit_two_pow_self] at h1
  cases hb : i.testBit n <;> rw [hb] at h1 <;> exact absurd h1 (by decide)

/-- Setting a fresh high bit by XOR is addition. -/
theorem xor_two_pow_eq_add (a n : Nat) (ha : a < 2 ^ n) : a ^^^ 2 ^ n = 2 ^ n + a := by
  apply Nat.eq_of_testBit_eq
  intro i
  rcases Nat.lt_trichotomy i n with hlt | heq | hgt
  · rw [Nat.testBit_two_pow_add_gt hlt a, Nat.testBit_xor,
      Nat.testBit_two_pow_of_ne (by omega : n ≠ i)]
    simp
  · subst heq
    rw [Nat.testBit_two_pow_add_eq, Nat.testBit_xor, Nat.testBit_two_pow_self,
      Nat.testBit_lt_two_pow ha]
    rfl
  · have h1 : a.testBit i = false :=
      Nat.testBit_lt_two_pow (lt_of_lt_of_le ha
        (Nat.pow_le_pow_right (by omega) (by omega)))
    have h2 : (2 ^ n + a).testBit i = false := by
      apply Nat.testBit_lt_two_pow
      have hp : 2 ^ (n + 1) ≤ 2 ^ i := Nat.pow_le_pow_right (by omega) (by omega)
      have hp2 : 2 ^ (n + 1) = 2 ^ n * 2 := pow_succ 2 n
      omega
    rw [h2, Nat.testBit_xor, h1, Nat.testBit_two_pow_of_ne (by omega : n ≠ i)]
    rfl

/-- Reducing modulo a doubled modulus either matches the plain residue or
exceeds it by exactly the modulus. -/
theorem mod_mul_two (h M : Nat) (hM : 0 < M) :
    h % (M * 2) = h % M ∨ h % (M * 2) = h % M + M := by
  have hx : h % (M * 2) % M = h % M := Nat.mod_mod_of_dvd h ⟨2, rfl⟩
  have hlt : h % (M * 2) < M * 2 := Nat.mod_lt _ (by omega)
  rcases Nat.lt_or_ge (h % (M * 2)) M with hc | hc
  · left
    rw [← hx, Nat.mod_eq_of_lt hc]
  · right
    have hsub : h % (M * 2) % M = h % (M * 2) - M := by
      rw [Nat.mod_eq_sub_mod hc]
      exact Nat.mod_eq_of_lt (by omega)
    omega

/-- `mod 2^(g+1)` refines `mod 2^g` by one extra bit. -/
theorem mod_two_pow_succ (h g : Nat) :
    h % 2 ^ (g + 1) = h % 2 ^ g ∨ h % 2 ^ (g + 1) = h % 2 ^ g + 2 ^ g := by
  have hp2 : (2 : Nat) ^ (g + 1) = 2 ^ g * 2 := pow_succ 2 g
  rw [hp2]
  exact mod_mul_two h (2 ^ g) (Nat.two_pow_pos g)

/-- `GetLocalDepth` is the raw depth array read. -/
theorem dir_ld_read (d : ExtendibleHTableDirectoryPage) (i : Nat) :
    d.GetLocalDepth i = d.local_depths i := rfl

/-- After raising a slot's local depth, its split image flips exactly the old
local-depth bit. -/
theorem dir_split_image_incr (d : ExtendibleHTableDirectoryPage) (i : Nat) :
    (d.IncrLocalDepth i).GetSplitImageIndex i = i ^^^ 2 ^ d.local_depths i := by
  unfold ExtendibleHTableDirectoryPage.GetSplitImageIndex
  rw [dir_incrLd_ld, if_pos rfl, Nat.add_sub_cancel]

/-- Global depth after a non-saturated `IncrGlobalDepth`. -/
theorem dir_incrGd_gd (d : ExtendibleHTableDirectoryPage)
    (hcap : ¬ d.max_depth ≤ d.global_depth) :
    d.IncrGlobalDepth.global_depth = d.global_depth + 1 := by
  unfold ExtendibleHTableDirectoryPage.IncrGlobalDepth
  rw [if_neg hcap]

/-- Lower-half local depths survive a non-saturated `IncrGlobalDepth`. -/
theorem dir_incrGd_ld_low (d : ExtendibleHTableDirectoryPage) (i : Nat)
    (hcap : ¬ d.max_depth ≤ d.global_depth) (hi : i < 2 ^ d.global_depth) :
    d.IncrGlobalDepth.local_depths i = d.local_depths i := by
  unfold ExtendibleHTableDirectoryPage.IncrGlobalDepth
  rw [if_neg hcap]
  show (if 2 ^ d.global_depth ≤ i ∧ i < 2 ^ (d.global_depth + 1) then
      d.local_depths (i - 2 ^ d.global_depth) else d.local_depths i) = d.local_depths i
  rw [if_neg (by omega)]

/-- `IncrGlobalDepth` preserves directory well-formedness. -/
theorem dirWF_incrGlobal (maxD : Nat) (d : ExtendibleHTableDirectoryPage)
    (hd : DirWF maxD d) : DirWF maxD d.IncrGlobalDepth := by
  obtain ⟨hm, hg, hl⟩ := hd
  unfold ExtendibleHTableDirectoryPage.IncrGlobalDepth
  split
  · exact ⟨hm, hg, hl⟩
  next hcap =>
    refine ⟨hm, ?_, ?_⟩
    · show d.global_depth + 1 ≤ maxD
      omega
    · intro i hi
      have hi2 : i < 2 ^ (d.global_depth + 1) := hi
      show (if 2 ^ d.global_depth ≤ i ∧ i < 2 ^ (d.global_depth + 1) then
          d.local_depths (i - 2 ^ d.global_depth) else d.local_depths i) ≤ d.global_depth + 1
      by_cases hc : 2 ^ d.global_depth ≤ i ∧ i < 2 ^ (d.global_depth + 1)
      · rw [if_pos hc]
        have hsub : i - 2 ^ d.global_depth < 2 ^ d.global_depth := by
          have h2 : 2 ^ (d.global_depth + 1) = 2 ^ d.global_depth * 2 := pow_succ 2 _
          omega
        have := hl _ hsub
        omega
      · rw [if_neg hc]
        have hilt : i < 2 ^ d.global_depth := by
          rcases Nat.lt_or_ge i (2 ^ d.global_depth) with hlo | hhi
          · exact hlo
          · exact absurd ⟨hhi, hi2⟩ hc
        have := hl i hilt
        omega

/-- `routedLd` through explicit header and directory reads. -/
theorem routedLd_eq (hash : Nat → Nat) (s1 : DiskExtendibleHashTable) (k : Nat)
    (dirId : Int) (d : ExtendibleHTableDirectoryPage)
    (hh : s1.header_dir_ids (s1.HashToDirectoryIndex (hash k)) = dirId)
    (hf : s1.fetchDir dirId = some d) :
    routedLd hash s1 k = d.GetLocalDepth (d.HashToBucketIndex (hash k)) := by
  unfold routedLd
  rw [hh, hf]

/-- The routed local depth is bounded by the directory capacity. -/
theorem routedLd_le (hash : Nat → Nat) (s : DiskExtendibleHashTable) (k : Nat)
    (hds : DirsWF s) : routedLd hash s k ≤ s.directory_max_depth := by
  unfold routedLd
  split
  next d hd =>
    obtain ⟨hm, hg, hl⟩ := hds _ d hd
    have hbx : hash k % 2 ^ d.global_depth < 2 ^ d.global_depth :=
      Nat.mod_lt _ (Nat.two_pow_pos _)
    have hld := hl _ hbx
    show d.local_depths (hash k % 2 ^ d.global_depth) ≤ s.directory_max_depth
    omega
  next => exact Nat.zero_le _

/-- All directories stay well formed across the page writes of a split round. -/
theorem dirsWF_chain (s : DiskExtendibleHashTable) (dirId bId sId : Int)
    (d4 : ExtendibleHTableDirectoryPage) (b1 b2 : ExtendibleHTableBucketPage)
    (hds : DirsWF s)
    (hd4 : DirWF s.directory_max_depth d4) :
    DirsWF (((({ s with next_page_id := s.next_page_id + 1 }).setPage dirId
      (HPage.dir d4)).setPage bId (HPage.bucket b1)).setPage sId (HPage.bucket b2)) := by
  intro id d hfd
  rw [fetchDir_setPage_bucket] at hfd
  by_cases h1 : id = sId
  · rw [if_pos h1] at hfd
    cases hfd
  · rw [if_neg h1, fetchDir_setPage_bucket] at hfd
    by_cases h2 : id = bId
    · rw [if_pos h2] at hfd
      cases hfd
    · rw [if_neg h2, fetchDir_setPage_dir] at hfd
      by_cases h3 : id = dirId
      · rw [if_pos h3] at hfd
        injection hfd with he
        exact he ▸ hd4
      · rw [if_neg h3] at hfd
        exact hds id d hfd

/-- `routedLd` after the page writes of a split round reads the rewritten
directory. -/
theorem routedLd_chain (hash : Nat → Nat) (k : Nat) (s : DiskExtendibleHashTable)
    (dirId bId sId : Int) (d4 : ExtendibleHTableDirectoryPage)
    (b1 b2 : ExtendibleHTableBucketPage)
    (hhid : s.header_dir_ids (s.HashToDirectoryIndex (hash k)) = dirId)
    (h1 : dirId ≠ sId) (h2 : dirId ≠ bId) :
    routedLd hash (((({ s with next_page_id := s.next_page_id + 1 }).setPage dirId
        (HPage.dir d4)).setPage bId (HPage.bucket b1)).setPage sId (HPage.bucket b2)) k =
      d4.local_depths (d4.HashToBucketIndex (hash k)) := by
  have hh : (((({ s with next_page_id := s.next_page_id + 1 }).setPage dirId
      (HPage.dir d4)).setPage bId (HPage.bucket b1)).setPage sId
      (HPage.bucket b2)).header_dir_ids
      ((((({ s with next_page_id := s.next_page_id + 1 }).setPage dirId
      (HPage.dir d4)).setPage bId (HPage.bucket b1)).setPage sId
      (HPage.bucket b2)).HashToDirectoryIndex (hash k)) = dirId := hhid
  unfold routedLd
  rw [hh, fetchDir_setPage_bucket, if_neg h1, fetchDir_setPage_bucket, if_neg h2,
    fetchDir_setPage_dir, if_pos rfl]
  rfl

/-- The directory written by a split round is well formed when the overflowing
slot sits strictly below the global depth and the split separated the depths. -/
theorem c4_dir4_wf (maxD : Nat) (d1 : ExtendibleHTableDirectoryPage) (bIdx : Nat) (pid : Int)
    (hd1 : DirWF maxD d1)
    (hlt : d1.local_depths bIdx < d1.global_depth)
    (hag : d1.local_depths (bIdx ^^^ 2 ^ d1.local_depths bIdx) = d1.local_depths bIdx) :
    DirWF maxD (((d1.IncrLocalDepth bIdx).IncrLocalDepth
      (bIdx ^^^ 2 ^ d1.local_depths bIdx)).SetBucketPageId
      (bIdx ^^^ 2 ^ d1.local_depths bIdx) pid) := by
  obtain ⟨hm, hg, hl⟩ := hd1
  have hne : bIdx ^^^ 2 ^ d1.local_depths bIdx ≠ bIdx := xor_two_pow_ne bIdx _
  refine ⟨hm, hg, ?_⟩
  intro i hi
  have hi1 : i < 2 ^ d1.global_depth := hi
  show (((d1.IncrLocalDepth bIdx).IncrLocalDepth
      (bIdx ^^^ 2 ^ d1.local_depths bIdx)).SetBucketPageId
      (bIdx ^^^ 2 ^ d1.local_depths bIdx) pid).local_depths i ≤ d1.global_depth
  rw [dir_setBp_ld]
  by_cases hiS : i = bIdx ^^^ 2 ^ d1.local_depths bIdx
  · rw [dir_incrLd_ld, if_pos hiS, dir_incrLd_ld, if_neg hne]
    omega
  · rw [dir_incrLd_ld, if_neg hiS]
    by_cases hib : i = bIdx
    · rw [dir_incrLd_ld, if_pos hib]
      omega
    · rw [dir_incrLd_ld, if_neg hib]
      have := hl i hi1
      omega

/-- After a split round the slot the hash routes to (whether the original or
its image) carries the raised local depth. -/
theorem c4_d4_routed (d1 : ExtendibleHTableDirectoryPage) (bIdx : Nat) (pid : Int) (h : Nat)
    (hag : d1.local_depths (bIdx ^^^ 2 ^ d1.local_depths bIdx) = d1.local_depths bIdx)
    (hroute : d1.HashToBucketIndex h = bIdx ∨
      d1.HashToBucketIndex h = bIdx ^^^ 2 ^ d1.local_depths bIdx) :
    (((d1.IncrLocalDepth bIdx).IncrLocalDepth
      (bIdx ^^^ 2 ^ d1.local_depths bIdx)).SetBucketPageId
      (bIdx ^^^ 2 ^ d1.local_depths bIdx) pid).local_depths
      ((((d1.IncrLocalDepth bIdx).IncrLocalDepth
      (bIdx ^^^ 2 ^ d1.local_depths bIdx)).SetBucketPageId
      (bIdx ^^^ 2 ^ d1.local_depths bIdx) pid).HashToBucketIndex h) =
      d1.local_depths bIdx + 1 := by
  have hne : bIdx ^^^ 2 ^ d1.local_depths bIdx ≠ bIdx := xor_two_pow_ne bIdx _
  have hidx : ((((d1.IncrLocalDepth bIdx).IncrLocalDepth
      (bIdx ^^^ 2 ^ d1.local_depths bIdx)).SetBucketPageId
      (bIdx ^^^ 2 ^ d1.local_depths bIdx) pid).HashToBucketIndex h) =
      d1.HashToBucketIndex h := rfl
  rw [hidx, dir_setBp_ld]
  rcases hroute with hr | hr
  · rw [hr, dir_incrLd_ld, if_neg (Ne.symm hne), dir_incrLd_ld, if_pos rfl]
  · rw [hr, dir_incrLd_ld, if_pos rfl, dir_incrLd_ld, if_neg hne, hag]

/-- A recursing split round keeps every directory well formed, keeps the
directory capacity, and leaves the key routed to a slot of local depth one
higher than before. -/
theorem splitCore_again_c4 (hash : Nat → Nat) (s : DiskExtendibleHashTable)
    (dirId : Int) (d1 : ExtendibleHTableDirectoryPage) (bIdx : Nat) (bId : Int)
    (B : ExtendibleHTableBucketPage) (k v : Nat) (s1 : DiskExtendibleHashTable)
    (hw : FreshWF s) (hds : DirsWF s)
    (hhid : s.header_dir_ids (s.HashToDirectoryIndex (hash k)) = dirId)
    (hdlt : dirId < s.next_page_id) (hdb : dirId ≠ bId)
    (hd1 : DirWF s.directory_max_depth d1)
    (hlt : d1.local_depths bIdx < d1.global_depth)
    (hroute : d1.HashToBucketIndex (hash k) = bIdx ∨
      d1.HashToBucketIndex (hash k) = bIdx ^^^ 2 ^ d1.local_depths bIdx)
    (hsi : s.splitCore hash dirId d1 bIdx bId B k v = .again s1) :
    DirsWF s1 ∧ s1.directory_max_depth = s.directory_max_depth ∧
      routedLd hash s1 k = d1.local_depths bIdx + 1 := by
  have hnn := hw.next_nonneg
  have hne : bIdx ^^^ 2 ^ d1.local_depths bIdx ≠ bIdx := xor_two_pow_ne bIdx _
  unfold DiskExtendibleHashTable.splitCore at hsi
  unfold UpdateDirectoryMapping at hsi
  rw [allocatePage_eq s hw.recycled] at hsi
  try dsimp only at hsi
  rw [dir_split_image_incr] at hsi
  split at hsi
  · cases hsi
  next hassert =>
    have hv1 : ((d1.IncrLocalDepth bIdx).IncrLocalDepth
        (bIdx ^^^ 2 ^ d1.local_depths bIdx)).local_depths bIdx =
        d1.local_depths bIdx + 1 := by
      rw [dir_incrLd_ld, if_neg (Ne.symm hne), dir_incrLd_ld, if_pos rfl]
    have hv2 : ((d1.IncrLocalDepth bIdx).IncrLocalDepth
        (bIdx ^^^ 2 ^ d1.local_depths bIdx)).local_depths
        (bIdx ^^^ 2 ^ d1.local_depths bIdx) =
        d1.local_depths (bIdx ^^^ 2 ^ d1.local_depths bIdx) + 1 := by
      rw [dir_incrLd_ld, if_pos rfl, dir_incrLd_ld, if_neg hne]
    have hag : d1.local_depths (bIdx ^^^ 2 ^ d1.local_depths bIdx) =
        d1.local_depths bIdx := by
      have heq := not_ne_iff.mp hassert
      rw [dir_ld_read, dir_ld_read, hv1, hv2] at heq
      omega
    split at hsi
    next => cases hsi
    next red hred =>
      split at hsi
      next hip =>
        split at hsi
        next => cases hsi
        next hins =>
          injection hsi with hsi2
          subst hsi2
          refine ⟨dirsWF_chain s dirId bId s.next_page_id _ _ _ hds
            (c4_dir4_wf s.directory_max_depth d1 bIdx s.next_page_id hd1 hlt hag), rfl, ?_⟩
          rw [routedLd_chain hash k s dirId bId s.next_page_id _ _ _ hhid
            (by omega) hdb]
          exact c4_d4_routed d1 bIdx s.next_page_id (hash k) hag hroute
      next hip =>
        split at hsi
        next hbp =>
          split at hsi
          next => cases hsi
          next hins =>
            injection hsi with hsi2
            subst hsi2
            refine ⟨dirsWF_chain s dirId bId s.next_page_id _ _ _ hds
              (c4_dir4_wf s.directory_max_depth d1 bIdx s.next_page_id hd1 hlt hag), rfl, ?_⟩
            rw [routedLd_chain hash k s dirId bId s.next_page_id _ _ _ hhid
              (by omega) hdb]
            exact c4_d4_routed d1 bIdx s.next_page_id (hash k) hag hroute
        next => cases hsi

/-- A recursing overflow round keeps the directories well formed, keeps the
directory capacity, and raises the routed local depth by exactly one. -/
theorem splitInsert_again_c4 (hash : Nat → Nat) (s : DiskExtendibleHashTable)
    (dirId : Int) (d : ExtendibleHTableDirectoryPage) (bId : Int)
    (B : ExtendibleHTableBucketPage) (k v : Nat) (s1 : DiskExtendibleHashTable)
    (hw : FreshWF s) (hds : DirsWF s)
    (hhid : s.header_dir_ids (s.HashToDirectoryIndex (hash k)) = dirId)
    (hd : s.fetchDir dirId = some d) (hB : s.fetchBucket bId = some B)
    (hsi : s.splitInsert hash dirId d (d.HashToBucketIndex (hash k)) bId B k v = .again s1) :
    DirsWF s1 ∧ s1.directory_max_depth = s.directory_max_depth ∧
      routedLd hash s1 k = routedLd hash s k + 1 := by
  have hdlt : dirId < s.next_page_id := FreshWF.fetchDir_lt s hw dirId d hd
  have hdb : dirId ≠ bId := fetchDir_ne_fetchBucket s dirId bId d B hd hB
  have hdwf := hds dirId d hd
  obtain ⟨hm0, hg0, hl0⟩ := hdwf
  have hrs : routedLd hash s k = d.local_depths (d.HashToBucketIndex (hash k)) :=
    routedLd_eq hash s k dirId d hhid hd
  have hbx : d.HashToBucketIndex (hash k) < 2 ^ d.global_depth :=
    Nat.mod_lt _ (Nat.two_pow_pos _)
  unfold DiskExtendibleHashTable.splitInsert at hsi
  try dsimp only at hsi
  split at hsi
  next hP =>
    split at hsi
    next => cases hsi
    next hq =>
      by_cases hcap : d.max_depth ≤ d.global_depth
      · exfalso
        have hid : d.IncrGlobalDepth = d := by
          unfold ExtendibleHTableDirectoryPage.IncrGlobalDepth
          rw [if_pos hcap]
        rw [hid] at hq
        exact hq hP
      · have hgg : d.IncrGlobalDepth.global_depth = d.global_depth + 1 :=
          dir_incrGd_gd d hcap
        have hldb : d.IncrGlobalDepth.local_depths (d.HashToBucketIndex (hash k)) =
            d.local_depths (d.HashToBucketIndex (hash k)) :=
          dir_incrGd_ld_low d _ hcap hbx
        have hps : (2 : Nat) ^ (d.global_depth + 1) = 2 ^ d.global_depth * 2 :=
          pow_succ 2 _
        have hlt2 : d.IncrGlobalDepth.local_depths (d.HashToBucketIndex (hash k)) <
            d.IncrGlobalDepth.global_depth := by
          rw [hgg, hldb]
          have := hl0 _ hbx
          omega
        have hP2 : d.local_depths (d.HashToBucketIndex (hash k)) = d.global_depth := hP
        have hroute2 : d.IncrGlobalDepth.HashToBucketIndex (hash k) =
            d.HashToBucketIndex (hash k) ∨
            d.IncrGlobalDepth.HashToBucketIndex (hash k) =
            d.HashToBucketIndex (hash k) ^^^
              2 ^ d.IncrGlobalDepth.local_depths (d.HashToBucketIndex (hash k)) := by
          have hhb : d.IncrGlobalDepth.HashToBucketIndex (hash k) =
              hash k % 2 ^ (d.global_depth + 1) := by
            unfold ExtendibleHTableDirectoryPage.HashToBucketIndex
            rw [hgg]
          rcases mod_two_pow_succ (hash k) d.global_depth with hmm | hmm
          · left
            rw [hhb, hmm]
            rfl
          · right
            rw [hhb, hmm, hldb, hP2, xor_two_pow_eq_add _ _ hbx]
            have hb2 : d.HashToBucketIndex (hash k) = hash k % 2 ^ d.global_depth := rfl
            rw [hb2]
            exact Nat.add_comm _ _
        obtain ⟨hds1, hdm1, hr1⟩ := splitCore_again_c4 hash s dirId d.IncrGlobalDepth
          (d.HashToBucketIndex (hash k)) bId B k v s1 hw hds hhid hdlt hdb
          (dirWF_incrGlobal s.directory_max_depth d ⟨hm0, hg0, hl0⟩) hlt2 hroute2 hsi
        refine ⟨hds1, hdm1, ?_⟩
        rw [hr1, hldb, hrs]
  next hP =>
    have hlt2 : d.local_depths (d.HashToBucketIndex (hash k)) < d.global_depth := by
      have := hl0 _ hbx
      have hne2 : ¬ d.local_depths (d.HashToBucketIndex (hash k)) = d.global_depth := hP
      omega
    obtain ⟨hds1, hdm1, hr1⟩ := splitCore_again_c4 hash s dirId d
      (d.HashToBucketIndex (hash k)) bId B k v s1 hw hds hhid hdlt hdb
      ⟨hm0, hg0, hl0⟩ hlt2 (Or.inl rfl) hsi
    refine ⟨hds1, hdm1, ?_⟩
    rw [hr1, hrs]

/-- With fuel exceeding the directory capacity minus the routed local depth,
the modelled recursion of `Insert` never exhausts its fuel: every recursive
round raises the routed local depth, which `DirsWF` bounds by the capacity. -/
theorem insertGo_fuel_enough (hash : Nat → Nat) (k v : Nat) :
    ∀ (fuel : Nat) (s : DiskExtendibleHashTable), FreshWF s → DirsWF s →
      s.directory_max_depth + 1 ≤ fuel + routedLd hash s k →
      DiskExtendibleHashTable.insertGo hash fuel s k v ≠
        DiskExtendibleHashTable.IRes.noFuel := by
  intro fuel
  induction fuel with
  | zero =>
    intro s _ hds hfm
    exfalso
    have := routedLd_le hash s k hds
    omega
  | succ fuel ih =>
    intro s hw hds hfm h
    unfold DiskExtendibleHashTable.insertGo at h
    try dsimp only at h
    split at h
    next => cases h
    next =>
      split at h
      next => cases h
      next d hd =>
        split at h
        next => cases h
        next hbp =>
          split at h
          next => cases h
          next B hB =>
            split at h
            next => cases h
            next =>
              split at h
              next => cases h
              next =>
                split at h
                next => cases h
                next =>
                  split at h
                  next => cases h
                  next s1 hsi => cases h
                  next s1 hsi => cases h
                  next s1 hsi =>
                    obtain ⟨hds1, hdm1, hr1⟩ := splitInsert_again_c4 hash s _ d _ B k v s1
                      hw hds rfl hd hB hsi
                    have hw1 := splitInsert_again_fresh hash s _ d _ _ B k v s1 hw hd hB hsi
                    exact ih s1 hw1 hds1 (by omega) h

/-- C4: from any state satisfying the allocation invariant (`FreshWF`) and the
directory-depth invariant (`DirsWF`, spec §3) — both holding in every
reachable state — `Insert(key, value)` terminates: the modelled recursion,
given fuel `directory_max_depth + 2`, never runs out, because each recursive
round after a split that fails to separate the entries raises the local depth
of the slot the key routes to, that depth is bounded by
`directory_max_depth`, and the round whose slot has reached the global depth
at `directory_max_depth` returns false instead of recursing. -/
theorem c4_insert_terminates (s : DiskExtendibleHashTable) (hash : Nat → Nat) (k v : Nat)
    (hw : FreshWF s) (hds : DirsWF s) :
    s.Insert hash k v ≠ DiskExtendibleHashTable.IRes.noFuel := by
  unfold DiskExtendibleHashTable.Insert
  exact insertGo_fuel_enough hash k v (s.directory_max_depth + 2) s hw hds (by omega)

/-- C4 witness: the fresh table of the spec's scenarios satisfies both
invariants (it has no directory pages at all), and `Insert(0, 0)` on it does
not exhaust the recursion fuel. -/
theorem c4_insert_terminates_witness :
    (newTable 1 3 1).Insert idHash 0 0 ≠ DiskExtendibleHashTable.IRes.noFuel :=
  c4_insert_terminates (newTable 1 3 1) idHash 0 0 (newTable_fresh 1 3 1)
    (by
      intro id d hfd
      simp [DiskExtendibleHashTable.fetchDir, newTable] at hfd)
